import Mathlib

/-!
Verification development for the `iri` library (RFC 3987 IRI parsing,
serialization, percent-encoding normalization and reference resolution).

The Go sources are embedded shallowly:
* the `IRI` record and the resolver (`resolveReference`, `resolvePath`)
  follow `resolve.go` and the converged record shape,
* the percent-encoding normalizer follows `normalizePercentEncoding` /
  `octetsFrom` together with Go's `unicode/utf8` decoding rules,
* the grammar is embedded as a small regular-expression engine whose
  expressions transcribe the constants of `regular-expression.go`,
* the public `Parse` / `Format` pipeline, whose Go file is not part of the
  provided sources, is modelled from the specification (see the doc
  comments starting with `Modelled from the spec:`).

Strings are processed as `List Char`; `String` wrappers mirror the Go API.
-/

deriving instance DecidableEq for Except

namespace Iri

/-- The converged IRI record: scheme, opaque authority, path, query and
fragment, with presence flags distinguishing "given but empty" from
"absent" for authority, query and fragment. -/
structure IRI where
  Scheme : String := ""
  ForceAuthority : Bool := false
  Authority : String := ""
  Path : String := ""
  ForceQuery : Bool := false
  Query : String := ""
  ForceFragment : Bool := false
  Fragment : String := ""
deriving DecidableEq, Repr

/-- Modelled from the spec: `hasScheme` (used by the resolver, defined in
the IRI record's Go file which is not among the provided sources) tests
whether the reference has a non-empty scheme. -/
def IRI.hasScheme (iri : IRI) : Bool := iri.Scheme ≠ ""

/-- Modelled from the spec: `hasAuthority` tests whether the authority is
present or non-empty. -/
def IRI.hasAuthority (iri : IRI) : Bool := iri.ForceAuthority || iri.Authority ≠ ""

/-- Modelled from the spec: `hasQuery` tests whether the query is present
or non-empty. -/
def IRI.hasQuery (iri : IRI) : Bool := iri.ForceQuery || iri.Query ≠ ""

/-- Index of the last occurrence of `c` in `l` (Go `strings.LastIndex` /
`strings.LastIndexByte` for a single character). -/
def lastIndexOf (c : Char) : List Char → Option Nat
  | [] => none
  | x :: xs =>
    match lastIndexOf c xs with
    | some i => some (i + 1)
    | none => if x = c then some 0 else none

/-- Split a character list at every `'/'`, keeping empty segments, exactly
as the scanning loop of `resolvePath` does via `strings.IndexByte`. -/
def splitOnSlash : List Char → List (List Char)
  | [] => [[]]
  | c :: rest =>
    if c = '/' then [] :: splitOnSlash rest
    else
      match splitOnSlash rest with
      | s :: ss => (c :: s) :: ss
      | [] => [[c]]

/-- One step of the dot-segment removal loop of `resolvePath`: state is the
output buffer `dst` and the `first` flag. -/
def removeDotsStep (st : List Char × Bool) (elem : List Char) : List Char × Bool :=
  if elem = ['.'] then (st.1, false)
  else if elem = ['.', '.'] then
    match lastIndexOf '/' st.1 with
    | none => ([], true)
    | some idx => (st.1.take idx, st.2)
  else (st.1 ++ (if st.2 then [] else ['/']) ++ elem, false)

/-- `resolvePath` from `resolve.go`: merge `ref` into `base` and remove dot
segments per RFC 3986. -/
def resolvePath (base ref : String) : String :=
  let full : List Char :=
    if ref = "" then base.data
    else if ref.data.head? ≠ some '/' then
      (base.data.take ((match lastIndexOf '/' base.data with
        | none => 0
        | some i => i + 1))) ++ ref.data
    else ref.data
  if full = [] then ""
  else
    let segs := splitOnSlash full
    let dst := (segs.foldl removeDotsStep ([], true)).1
    let last := segs.getLastD []
    let dst := if last = ['.'] ∨ last = ['.', '.'] then dst ++ ['/'] else dst
    String.mk ('/' :: (if dst.head? = some '/' then dst.tail else dst))

/-- `resolveReference` from `resolve.go`: RFC 3986 §5.2 reference
resolution over two IRI records. -/
def resolveReference (base ref : IRI) : IRI :=
  let result := ref
  if ref.hasScheme then result
  else
    let result := { result with Scheme := base.Scheme }
    if ref.hasAuthority then { result with Path := resolvePath ref.Path "" }
    else
      let result := { result with
        ForceAuthority := base.ForceAuthority
        Authority := base.Authority
        Path := resolvePath base.Path ref.Path }
      if ref.hasQuery || ref.Path ≠ "" then result
      else { result with ForceQuery := base.ForceQuery, Query := base.Query }

/-! ## Percent-codec: character classes, hex, UTF-8, run normalization -/

/-- `[a-zA-Z]` (`alphaChars`). -/
def isAlphaChar (c : Char) : Bool :=
  (0x41 ≤ c.toNat && c.toNat ≤ 0x5A) || (0x61 ≤ c.toNat && c.toNat ≤ 0x7A)

/-- `\d` (`digitChars`, ASCII digits in the Go regexp dialect). -/
def isDigitChar (c : Char) : Bool := 0x30 ≤ c.toNat && c.toNat ≤ 0x39

/-- The `ucschar` ranges of RFC 3987 §2.2, as in `regular-expression.go`. -/
def isUcschar (c : Char) : Bool :=
  let n := c.toNat
  (0xA0 ≤ n && n ≤ 0xD7FF) || (0xF900 ≤ n && n ≤ 0xFDCF) ||
  (0xFDF0 ≤ n && n ≤ 0xFFEF) || (0x10000 ≤ n && n ≤ 0x1FFFD) ||
  (0x20000 ≤ n && n ≤ 0x2FFFD) || (0x30000 ≤ n && n ≤ 0x3FFFD) ||
  (0x40000 ≤ n && n ≤ 0x4FFFD) || (0x50000 ≤ n && n ≤ 0x5FFFD) ||
  (0x60000 ≤ n && n ≤ 0x6FFFD) || (0x70000 ≤ n && n ≤ 0x7FFFD) ||
  (0x80000 ≤ n && n ≤ 0x8FFFD) || (0x90000 ≤ n && n ≤ 0x9FFFD) ||
  (0xA0000 ≤ n && n ≤ 0xAFFFD) || (0xB0000 ≤ n && n ≤ 0xBFFFD) ||
  (0xC0000 ≤ n && n ≤ 0xCFFFD) || (0xD0000 ≤ n && n ≤ 0xDFFFD) ||
  (0xE1000 ≤ n && n ≤ 0xEFFFD)

/-- `iunreserved` as a character class (the production is an alternation of
single-character classes, so matching one character is class membership). -/
def iunreservedChar (c : Char) : Bool :=
  isAlphaChar c || isDigitChar c || c = '-' || c = '.' || c = '_' || c = '~' || isUcschar c

/-- `[0-9A-Fa-f]` (`hex`). -/
def isHexDigit (c : Char) : Bool :=
  isDigitChar c || (0x41 ≤ c.toNat && c.toNat ≤ 0x46) || (0x61 ≤ c.toNat && c.toNat ≤ 0x66)

/-- `[0-9A-F]`: the key alphabet of the `hexToByte` table, whose keys are
`fmt.Sprintf("%02X", i)` for every byte `i`. -/
def isUpperHexDigit (c : Char) : Bool :=
  isDigitChar c || (0x41 ≤ c.toNat && c.toNat ≤ 0x46)

/-- Numeric value of a hex digit. -/
def hexDigitVal (c : Char) : Nat :=
  if isDigitChar c then c.toNat - 0x30
  else if 0x41 ≤ c.toNat && c.toNat ≤ 0x46 then c.toNat - 0x37
  else if 0x61 ≤ c.toNat && c.toNat ≤ 0x66 then c.toNat - 0x57
  else 0

/-- Lookup in the `hexToByte` map: defined exactly for two-uppercase-hex
keys (the map holds `%02X` of every byte). -/
def hexToByte (c1 c2 : Char) : Option Nat :=
  if isUpperHexDigit c1 && isUpperHexDigit c2 then
    some (16 * hexDigitVal c1 + hexDigitVal c2)
  else none

/-- `octetsFrom` from `iri.go`: one octet per three characters, reading the
two characters after each `%` as an uppercased hex key; a missing key
yields the map's zero value, a trailing short chunk is dropped, exactly as
`len/3` indexing does. -/
def octetsFrom : List Char → List Nat
  | _ :: h1 :: h2 :: rest => (hexToByte h1.toUpper h2.toUpper).getD 0 :: octetsFrom rest
  | _ => []

/-- Instrumented variant of `octetsFrom` that fails instead of defaulting:
`none` when a chunk does not start with `'%'`, when a hex key is absent
from the table, or when a trailing chunk of fewer than three characters
would be dropped. -/
def octetsFromChecked : List Char → Option (List Nat)
  | [] => some []
  | p :: h1 :: h2 :: rest =>
    if p = '%' then
      match hexToByte h1.toUpper h2.toUpper, octetsFromChecked rest with
      | some b, some bs => some (b :: bs)
      | _, _ => none
    else none
  | _ => none

/-- `utf8.RuneError` (U+FFFD). -/
def runeError : Char := '�'

/-- UTF-8 encoding of a scalar value (`utf8.EncodeRune`). -/
def utf8Encode (c : Char) : List Nat :=
  let n := c.toNat
  if n < 0x80 then [n]
  else if n < 0x800 then [0xC0 + n / 64, 0x80 + n % 64]
  else if n < 0x10000 then [0xE0 + n / 4096, 0x80 + n / 64 % 64, 0x80 + n % 64]
  else [0xF0 + n / 262144, 0x80 + n / 4096 % 64, 0x80 + n / 64 % 64, 0x80 + n % 64]

/-- Continuation byte `[0x80, 0xBF]`. -/
def isCont (b : Nat) : Bool := 0x80 ≤ b && b ≤ 0xBF

/-- Accepted range of the second byte of a three-byte sequence
(`utf8.acceptRanges`): excludes overlong forms and surrogates. -/
def accept3 (b0 b1 : Nat) : Bool :=
  if b0 = 0xE0 then 0xA0 ≤ b1 && b1 ≤ 0xBF
  else if b0 = 0xED then 0x80 ≤ b1 && b1 ≤ 0x9F
  else isCont b1

/-- Accepted range of the second byte of a four-byte sequence. -/
def accept4 (b0 b1 : Nat) : Bool :=
  if b0 = 0xF0 then 0x90 ≤ b1 && b1 ≤ 0xBF
  else if b0 = 0xF4 then 0x80 ≤ b1 && b1 ≤ 0x8F
  else isCont b1
/-- `%02X` percent triple of a byte (`byteToUppercasePercentEncoding`). -/
def upperHexDigit (n : Nat) : Char :=
  if n < 10 then Char.ofNat (0x30 + n) else Char.ofNat (0x37 + n)

/-- The `"%XX"` string the map `byteToUppercasePercentEncoding` holds for a
byte. -/
def pctTriple (b : Nat) : List Char := ['%', upperHexDigit (b / 16), upperHexDigit (b % 16)]

/-- Emission for one decoded code point: an `iunreserved` code point is
emitted literally, any other is re-encoded as uppercase percent triples,
one per UTF-8 octet (`utf8.EncodeRune` plus the byte-to-triple map). -/
def emitCp (cp : Char) : List Char :=
  if iunreservedChar cp then [cp] else ((utf8Encode cp).map pctTriple).flatten

/-- `utf8.DecodeRune`: first scalar of the byte list with its encoded
size, using Go's accept ranges (ASCII; `C2..DF` + continuation; `E0..EF`
with `E0`/`ED` second-byte restrictions excluding overlong forms and
surrogates; `F0..F4` with `F0`/`F4` restrictions); `(RuneError, 1)` on
malformed input, `(RuneError, 0)` on empty input. -/
def decodeRune : List Nat → Char × Nat
  | [] => (runeError, 0)
  | b0 :: rest =>
    if b0 < 0x80 then (Char.ofNat b0, 1)
    else if 0xC2 ≤ b0 && b0 ≤ 0xDF then
      match rest with
      | b1 :: _ =>
        if isCont b1 then (Char.ofNat ((b0 - 0xC0) * 64 + (b1 - 0x80)), 2)
        else (runeError, 1)
      | [] => (runeError, 1)
    else if 0xE0 ≤ b0 && b0 ≤ 0xEF then
      match rest with
      | b1 :: b2 :: _ =>
        if accept3 b0 b1 && isCont b2 then
          (Char.ofNat ((b0 - 0xE0) * 4096 + (b1 - 0x80) * 64 + (b2 - 0x80)), 3)
        else (runeError, 1)
      | _ => (runeError, 1)
    else if 0xF0 ≤ b0 && b0 ≤ 0xF4 then
      match rest with
      | b1 :: b2 :: b3 :: _ =>
        if accept4 b0 b1 && isCont b2 && isCont b3 then
          (Char.ofNat
            ((b0 - 0xF0) * 262144 + (b1 - 0x80) * 4096 + (b2 - 0x80) * 64 + (b3 - 0x80)), 4)
        else (runeError, 1)
      | _ => (runeError, 1)
    else (runeError, 1)

/-- The decode-and-reencode loop of `normalizePercentEncoding` over the
octets of one percent-encoded run, with an explicit step budget (the loop
consumes at least one octet per step, so a budget of the list's length is
always sufficient): greedily decode code points with `decodeRune`; a
`RuneError` result fails the whole run; every decoded code point is
emitted via `emitCp`. -/
def normalizeOctetsF : Nat → List Nat → Option (List Char)
  | _, [] => some []
  | 0, _ :: _ => none
  | fuel + 1, b0 :: rest =>
    let d := decodeRune (b0 :: rest)
    if d.1 = runeError then none
    else
      match normalizeOctetsF fuel ((b0 :: rest).drop d.2) with
      | none => none
      | some tail => some (emitCp d.1 ++ tail)

/-- The decode-and-reencode loop with its sufficient budget. -/
def normalizeOctets (l : List Nat) : Option (List Char) := normalizeOctetsF l.length l

/-- Is the list a (possibly empty) chain of back-to-back `%XX` triples,
i.e. (when non-empty) a match of `pctEncodedOneOrMore`? -/
def isTriples : List Char → Bool
  | [] => true
  | c :: h1 :: h2 :: rest => c = '%' && isHexDigit h1 && isHexDigit h2 && isTriples rest
  | _ => false

/-- Does the text start with a `%XX` triple, i.e. is this a position where
the pattern `pctEncodedOneOrMore` matches? -/
def isRunStart : List Char → Bool
  | c :: h1 :: h2 :: _ => c = '%' && isHexDigit h1 && isHexDigit h2
  | _ => false

/-- The replacement scan of `pctEncodedCharOneOrMore.ReplaceAllStringFunc`
inside `normalizePercentEncoding`: `acc` holds the triples of the percent
run currently being collected; at the end of each maximal run its octets
(via `octetsFrom`) are decoded and re-encoded; characters outside runs
pass through unchanged; a run that fails to decode fails the whole
component. -/
def scanPct : List Char → List Char → Option (List Char)
  | acc, c :: h1 :: h2 :: rest =>
    if c = '%' && isHexDigit h1 && isHexDigit h2 then
      scanPct (acc ++ [c, h1, h2]) rest
    else
      match normalizeOctets (octetsFrom acc), scanPct [] (h1 :: h2 :: rest) with
      | some out, some tail => some (out ++ c :: tail)
      | _, _ => none
  | acc, l =>
    match normalizeOctets (octetsFrom acc) with
    | some out => some (out ++ l)
    | none => none

/-- The component-level normalizer applied by `normalizePercentEncoding`
to one component string. -/
def normalizeComponent (l : List Char) : Option (List Char) := scanPct [] l

/-- The same scan, returning the maximal percent runs instead of
rewriting: exactly the strings the replacement callback (and hence
`octetsFrom`) is handed. -/
def scanRuns : List Char → List Char → List (List Char)
  | acc, c :: h1 :: h2 :: rest =>
    if c = '%' && isHexDigit h1 && isHexDigit h2 then
      scanRuns (acc ++ [c, h1, h2]) rest
    else (if acc.isEmpty then [] else [acc]) ++ scanRuns [] (h1 :: h2 :: rest)
  | acc, _ => if acc.isEmpty then [] else [acc]

/-- The maximal percent runs of a component, in order. -/
def runsOf (l : List Char) : List (List Char) := scanRuns [] l
/-- Modelled from the spec: `NormalizePercentEncoding` (its Go file is not
among the provided sources; the spec requires the run normalizer to be
applied independently to authority, path, query and fragment — not scheme
— failing atomically with an encoding error). -/
def NormalizePercentEncoding (iri : IRI) : Except String IRI :=
  match normalizeComponent iri.Authority.data, normalizeComponent iri.Path.data,
      normalizeComponent iri.Query.data, normalizeComponent iri.Fragment.data with
  | some a, some p, some q, some f =>
    .ok { iri with
      Authority := String.mk a
      Path := String.mk p
      Query := String.mk q
      Fragment := String.mk f }
  | _, _, _, _ => .error "invalid percent encoding"

/-! ## Regular-expression engine

The grammar of `regular-expression.go` is built by concatenating pattern
strings; here the same productions are built as abstract syntax of a small
regular-expression language, decided by Brzozowski derivatives. A
validator `xRE.matches l` corresponds to `xRE.MatchString(l)` for the
anchored `^x$` patterns compiled in the source. -/

/-- Regular expressions over characters: empty language, empty string,
character class, concatenation, alternation, Kleene star. -/
inductive RE where
  | fail : RE
  | eps : RE
  | cls : (Char → Bool) → RE
  | cat : RE → RE → RE
  | alt : RE → RE → RE
  | star : RE → RE

/-- Smart concatenation (simplifies the `fail`/`eps` units so derivative
terms stay small). -/
def RE.mkCat (a b : RE) : RE :=
  match a, b with
  | .fail, _ => .fail
  | _, .fail => .fail
  | .eps, b => b
  | a, .eps => a
  | a, b => .cat a b

/-- Smart alternation. -/
def RE.mkAlt (a b : RE) : RE :=
  match a, b with
  | .fail, b => b
  | a, .fail => a
  | a, b => .alt a b

/-- Does the language contain the empty string? -/
def RE.nullable : RE → Bool
  | .fail => false
  | .eps => true
  | .cls _ => false
  | .cat a b => a.nullable && b.nullable
  | .alt a b => a.nullable || b.nullable
  | .star _ => true

/-- Brzozowski derivative by one character. -/
def RE.deriv (r : RE) (c : Char) : RE :=
  match r with
  | .fail => .fail
  | .eps => .fail
  | .cls p => if p c then .eps else .fail
  | .cat a b =>
    if a.nullable then .mkAlt (.mkCat (a.deriv c) b) (b.deriv c)
    else .mkCat (a.deriv c) b
  | .alt a b => .mkAlt (a.deriv c) (b.deriv c)
  | .star a => .mkCat (a.deriv c) (.star a)

/-- Anchored match of the whole character list. -/
def RE.matches (r : RE) (l : List Char) : Bool := (l.foldl RE.deriv r).nullable

/-- Single-character literal. -/
def RE.chr (c : Char) : RE := .cls (· = c)

/-- `x?`. -/
def RE.opt (a : RE) : RE := .alt a .eps

/-- `x+`. -/
def RE.plus (a : RE) : RE := .cat a (.star a)

/-- `x{n}` (explicitly unrolled repetition). -/
def RE.rep (a : RE) : Nat → RE
  | 0 => .eps
  | n + 1 => .cat a (a.rep n)

/-- `x{0,n}` (as `(x?){n}`, same language). -/
def RE.repUpTo (a : RE) (n : Nat) : RE := a.opt.rep n

/-- Alternation of a list of expressions. -/
def RE.altList (l : List RE) : RE := l.foldr .alt .fail

/-- Concatenation of a list of expressions. -/
def RE.seq (l : List RE) : RE := l.foldr .cat .eps

/-! ## Grammar transcription (`regular-expression.go`) -/

/-- `subDelims` class. -/
def isSubDelim (c : Char) : Bool :=
  c = '!' || c = '$' || c = '&' || c = '\'' || c = '(' || c = ')' ||
  c = '*' || c = '+' || c = ',' || c = ';' || c = '='

/-- `iprivate` ranges. -/
def isIprivate (c : Char) : Bool :=
  let n := c.toNat
  (0xE000 ≤ n && n ≤ 0xF8FF) || (0xF0000 ≤ n && n ≤ 0xFFFFD) ||
  (0x100000 ≤ n && n ≤ 0x10FFFD)

/-- `hex`. -/
def hexRE : RE := .cls isHexDigit

/-- `alphaChars`. -/
def alphaRE : RE := .cls isAlphaChar

/-- `digitChars`. -/
def digitRE : RE := .cls isDigitChar

/-- `unreserved`. -/
def unreservedRE : RE :=
  .altList [alphaRE, digitRE, .cls (fun c => c = '-' || c = '.' || c = '_' || c = '~')]

/-- `iunreserved`. -/
def iunreservedRE : RE :=
  .altList [alphaRE, digitRE, .cls (fun c => c = '-' || c = '.' || c = '_' || c = '~'),
    .cls isUcschar]

/-- `subDelims`. -/
def subDelimsRE : RE := .cls isSubDelim

/-- `pctEncoded` (`%` followed by two hex digits). -/
def pctEncodedRE : RE := .seq [.chr '%', hexRE, hexRE]

/-- `ipchar`. -/
def ipcharRE : RE :=
  .altList [iunreservedRE, pctEncodedRE, subDelimsRE, .cls (fun c => c = ':' || c = '@')]

/-- `scheme`. -/
def schemeRE : RE :=
  .cat alphaRE (.star (.altList [alphaRE, digitRE,
    .cls (fun c => c = '+' || c = '-' || c = '.')]))

/-- `iuserinfo`. -/
def iuserinfoRE : RE :=
  .star (.altList [iunreservedRE, pctEncodedRE, subDelimsRE, .chr ':'])

/-- `port`. -/
def portRE : RE := .star digitRE

/-- `iregName`. -/
def iregNameRE : RE := .star (.altList [iunreservedRE, pctEncodedRE, subDelimsRE])

/-- `decOctet`. -/
def decOctetRE : RE :=
  .altList [digitRE,
    .cat (.cls (fun c => 0x31 ≤ c.toNat && c.toNat ≤ 0x39)) digitRE,
    .seq [.chr '1', digitRE, digitRE],
    .seq [.chr '2', .cls (fun c => 0x30 ≤ c.toNat && c.toNat ≤ 0x34), digitRE],
    .seq [.chr '2', .chr '5', .cls (fun c => 0x30 ≤ c.toNat && c.toNat ≤ 0x35)]]

/-- The unescaped `.` between the octets of `ipV4Address` (the Go pattern
uses a bare dot, which matches any character except newline). -/
def anyCharRE : RE := .cls (fun c => c ≠ '\n')

/-- `ipV4Address`. -/
def ipV4AddressRE : RE :=
  .seq [decOctetRE, anyCharRE, decOctetRE, anyCharRE, decOctetRE, anyCharRE, decOctetRE]

/-- `h16`. -/
def h16RE : RE := .cat hexRE (hexRE.repUpTo 3)

/-- `ls32`. -/
def ls32RE : RE := .alt (.seq [h16RE, .chr ':', h16RE]) ipV4AddressRE

/-- `h16 ":"`, the repeated group of `ipV6Address`. -/
def h16ColonRE : RE := .cat h16RE (.chr ':')

/-- `"::"`. -/
def colonColonRE : RE := .cat (.chr ':') (.chr ':')

/-- `ipV6Address` (explicitly unrolled alternatives, as in the source). -/
def ipV6AddressRE : RE :=
  .altList
    [.seq [h16ColonRE.rep 6, ls32RE],
     .seq [colonColonRE, h16ColonRE.rep 5, ls32RE],
     .seq [h16RE.opt, colonColonRE, h16ColonRE.rep 4, ls32RE],
     .seq [(RE.cat (h16ColonRE.repUpTo 1) h16RE).opt, colonColonRE, h16ColonRE.rep 3, ls32RE],
     .seq [(RE.cat (h16ColonRE.repUpTo 2) h16RE).opt, colonColonRE, h16ColonRE.rep 2, ls32RE],
     .seq [(RE.cat (h16ColonRE.repUpTo 3) h16RE).opt, colonColonRE, h16ColonRE, ls32RE],
     .seq [(RE.cat (h16ColonRE.repUpTo 4) h16RE).opt, colonColonRE, ls32RE],
     .seq [(RE.cat (h16ColonRE.repUpTo 5) h16RE).opt, colonColonRE, h16RE],
     .seq [(RE.cat (h16ColonRE.repUpTo 6) h16RE).opt, colonColonRE]]

/-- `ipVFuture`. -/
def ipVFutureRE : RE :=
  .seq [.chr 'v', hexRE, .chr '.',
    .star (.altList [unreservedRE, subDelimsRE, .chr ':'])]

/-- `ipLiteral`. -/
def ipLiteralRE : RE := .seq [.chr '[', .alt ipV6AddressRE ipVFutureRE, .chr ']']

/-- `ihost`. -/
def ihostRE : RE := .altList [ipLiteralRE, ipV4AddressRE, iregNameRE]

/-- `iauthority`. -/
def iauthorityRE : RE :=
  .seq [(RE.cat iuserinfoRE (.chr '@')).opt, ihostRE, (RE.cat (.chr ':') portRE).opt]

/-- `isegment`. -/
def isegmentRE : RE := .star ipcharRE

/-- `isegmentnz`. -/
def isegmentnzRE : RE := ipcharRE.plus

/-- `isegmentnznc` (note: in the source this production has no repetition
operator — it is a single unreserved/pct-encoded/sub-delim/`@` unit). -/
def isegmentnzncRE : RE :=
  .altList [iunreservedRE, pctEncodedRE, subDelimsRE, .chr '@']

/-- `(?:\/ isegment)*`, shared tail of the path forms. -/
def slashSegmentsRE : RE := .star (RE.cat (.chr '/') isegmentRE)

/-- `ipathabempty`. -/
def ipathabemptyRE : RE := slashSegmentsRE

/-- `ipathabsolute`. -/
def ipathabsoluteRE : RE :=
  .cat (.chr '/') (RE.cat isegmentnzRE slashSegmentsRE).opt

/-- `ipathnoscheme`. -/
def ipathnoschemeRE : RE := .cat isegmentnzncRE slashSegmentsRE

/-- `ipathrootless`. -/
def ipathrootlessRE : RE := .cat isegmentnzRE slashSegmentsRE

/-- `ipath`. -/
def ipathRE : RE :=
  .altList [ipathabemptyRE, ipathabsoluteRE, ipathnoschemeRE, ipathrootlessRE, .eps]

/-- `iprivate`. -/
def iprivateRE : RE := .cls isIprivate

/-- `iquery`. -/
def iqueryRE : RE :=
  .star (.altList [ipcharRE, iprivateRE, .cls (fun c => c = '/' || c = '?')])

/-- `ifragment`. -/
def ifragmentRE : RE :=
  .star (.alt ipcharRE (.cls (fun c => c = '/' || c = '?')))

/-! ## Coarse split (`uriRE`, RFC 3986 page 50) and the public pipeline -/

/-- The five raw substrings plus presence markers produced by
`uriRE.FindStringSubmatch`, together with the text the (prefix-anchored,
unanchored-at-the-end) pattern leaves unconsumed. -/
structure CoarseParts where
  scheme : Option (List Char)
  auth : Option (List Char)
  path : List Char
  query : Option (List Char)
  frag : Option (List Char)
  rest : List Char
deriving DecidableEq, Repr

/-- Character class `[^:/?#]` of the scheme group. -/
def isSchemeBodyChar (c : Char) : Bool :=
  ¬(c = ':' || c = '/' || c = '?' || c = '#')

/-- Character class `[^/?#]` of the authority group. -/
def isAuthChar (c : Char) : Bool := ¬(c = '/' || c = '?' || c = '#')

/-- Character class `[^?#]` of the path group. -/
def isPathChar (c : Char) : Bool := ¬(c = '?' || c = '#')

/-- The greedy optional group `(([^:/?#]+):)?`: the maximal run of
non-delimiter characters is the scheme only when non-empty and followed by
a colon. -/
def splitSchemeCandidate (l : List Char) : Option (List Char) × List Char :=
  let pre := l.takeWhile isSchemeBodyChar
  match l.dropWhile isSchemeBodyChar with
  | c :: r => if c = ':' ∧ ¬pre.isEmpty then (some pre, r) else (none, l)
  | _ => (none, l)

/-- The greedy optional authority group `(//([^/?#]*))?`. -/
def authSplit (l : List Char) : Option (List Char) × List Char :=
  match l with
  | c :: d :: r =>
    if c = '/' ∧ d = '/' then (some (r.takeWhile isAuthChar), r.dropWhile isAuthChar)
    else (none, c :: d :: r)
  | _ => (none, l)

/-- The greedy optional query group `(\?([^#]*))?`. -/
def querySplit (l : List Char) : Option (List Char) × List Char :=
  match l with
  | c :: r =>
    if c = '?' then (some (r.takeWhile (fun x => x ≠ '#')), r.dropWhile (fun x => x ≠ '#'))
    else (none, c :: r)
  | _ => (none, l)

/-- The greedy optional fragment group `(#(.*))?`; `.` stops at a
newline. -/
def fragSplit (l : List Char) : Option (List Char) × List Char :=
  match l with
  | c :: r =>
    if c = '#' then (some (r.takeWhile (fun x => x ≠ '\n')), r.dropWhile (fun x => x ≠ '\n'))
    else (none, c :: r)
  | _ => (none, l)

/-- The remaining groups `(//([^/?#]*))?([^?#]*)(\?([^#]*))?(#(.*))?` from
a given position. -/
def coarseSplitFrom (sch : Option (List Char)) (l : List Char) : CoarseParts :=
  let a := authSplit l
  let path := a.2.takeWhile isPathChar
  let q := querySplit (a.2.dropWhile isPathChar)
  let f := fragSplit q.2
  ⟨sch, a.1, path, q.1, f.1, f.2⟩

/-- Full coarse split of `uriRE`. -/
def coarseSplit (l : List Char) : CoarseParts :=
  let p := splitSchemeCandidate l
  coarseSplitFrom p.1 p.2

/-- Modelled from the spec: when the prefix before the first colon does
not match the scheme grammar, the whole string is treated as schemeless
and reparsed. -/
def parseParts (l : List Char) : CoarseParts :=
  let cp := coarseSplit l
  match cp.scheme with
  | some sch => if schemeRE.matches sch then cp else coarseSplitFrom none l
  | none => cp

/-- The IRI record constructed from the coarse parts: the presence flags
are marker-present-and-component-empty, components are kept verbatim. -/
def buildIRI (cp : CoarseParts) : IRI :=
  { Scheme := String.mk (cp.scheme.getD [])
    ForceAuthority := cp.auth = some []
    Authority := String.mk (cp.auth.getD [])
    Path := String.mk cp.path
    ForceQuery := cp.query = some []
    Query := String.mk (cp.query.getD [])
    ForceFragment := cp.frag = some []
    Fragment := String.mk (cp.frag.getD []) }

/-- Modelled from the spec: validation pipeline of `Parse` — each
non-empty component must match its grammar, then the percent-encoding of
authority, path, query and fragment is confirmed via the normalizer
(values discarded, the original escaping is preserved). -/
def checkParts (cp : CoarseParts) : Except String IRI :=
  let sch := cp.scheme.getD []
  let auth := cp.auth.getD []
  let query := cp.query.getD []
  let frag := cp.frag.getD []
  if ¬sch.isEmpty ∧ ¬schemeRE.matches sch then .error "invalid scheme"
  else if ¬auth.isEmpty ∧ ¬iauthorityRE.matches auth then .error "invalid auth"
  else if ¬cp.path.isEmpty ∧ ¬ipathRE.matches cp.path then .error "invalid path"
  else if ¬query.isEmpty ∧ ¬iqueryRE.matches query then .error "invalid query"
  else if ¬frag.isEmpty ∧ ¬ifragmentRE.matches frag then .error "invalid fragment"
  else
    match normalizeComponent auth, normalizeComponent cp.path,
        normalizeComponent query, normalizeComponent frag with
    | some _, some _, some _, some _ => .ok (buildIRI cp)
    | _, _, _, _ => .error "invalid percent encoding"

/-- Modelled from the spec: `Parse` — coarse split (rescanning schemeless
when the scheme candidate fails its grammar), validate, confirm percent
encoding, return the record with presence flags. -/
def Parse (s : String) : Except String IRI := checkParts (parseParts s.data)

/-- Modelled from the spec: `Format` (the `String()` serializer) — emit
`scheme ":"` when the scheme is non-empty, `"//" authority` when present
or non-empty, the path unconditionally, `"?" query` and `"#" fragment`
when present or non-empty. -/
def Format (iri : IRI) : String :=
  (if iri.Scheme ≠ "" then iri.Scheme ++ ":" else "") ++
  (if iri.ForceAuthority || iri.Authority ≠ "" then "//" ++ iri.Authority else "") ++
  iri.Path ++
  (if iri.ForceQuery || iri.Query ≠ "" then "?" ++ iri.Query else "") ++
  (if iri.ForceFragment || iri.Fragment ≠ "" then "#" ++ iri.Fragment else "")

/-- The text of the scheme group with its trailing colon. -/
def schemeText (o : Option (List Char)) : List Char :=
  match o with
  | some x => x ++ [':']
  | none => []

/-- The text of an optional group re-prefixed with its marker. -/
def markPre (m : List Char) (o : Option (List Char)) : List Char :=
  match o with
  | some x => m ++ x
  | none => []

/-- The text a coarse split came from: each present group re-prefixed with
its marker, followed by the unconsumed tail. -/
def joinParts (cp : CoarseParts) : List Char :=
  schemeText cp.scheme ++ markPre ['/', '/'] cp.auth ++ cp.path ++
  markPre ['?'] cp.query ++ markPre ['#'] cp.frag ++ cp.rest

/-! ## Predicates used in theorem statements -/

/-- Every `'%'` in the list begins a full `%XX` triple (no stray percent
signs). -/
def pctWellFormed : List Char → Bool
  | [] => true
  | c :: rest =>
    if c = '%' then
      match rest with
      | h1 :: h2 :: rest2 => isHexDigit h1 && isHexDigit h2 && pctWellFormed rest2
      | _ => false
    else pctWellFormed rest

/-- A byte list is well-formed UTF-8: it is the concatenation of the
UTF-8 encodings of a sequence of Unicode scalar values. -/
def utf8WellFormed (l : List Nat) : Prop :=
  ∃ cs : List Char, l = (cs.map utf8Encode).flatten

/-- The component contains a maximal percent run whose decoded octets are
not a valid UTF-8 sequence. -/
def hasBadRun (l : List Char) : Prop :=
  ∃ r ∈ runsOf l, ¬ utf8WellFormed (octetsFrom r)

/-- One output atom of the normalizer: a character passed through or
emitted literally, or a code point re-encoded as percent triples. -/
inductive NormAtom where
  | lit : Char → NormAtom
  | enc : Char → NormAtom

/-- The text an atom renders to. -/
def NormAtom.render : NormAtom → List Char
  | .lit c => [c]
  | .enc c => ((utf8Encode c).map pctTriple).flatten

/-- Invariant of the normalizer's output atoms: literal characters are
never `'%'`, re-encoded code points are never `iunreserved` and never
`RuneError`. -/
def NormAtom.good : NormAtom → Prop
  | .lit c => c ≠ '%'
  | .enc c => iunreservedChar c = false ∧ c ≠ runeError

/-- Rendering of a whole atom list. -/
def renderAtoms (atoms : List NormAtom) : List Char :=
  (atoms.map NormAtom.render).flatten

/-- The atoms describing the output of one normalized run, one per
decoded code point. -/
def atomsOfCps (cps : List Char) : List NormAtom :=
  cps.map (fun cp => if iunreservedChar cp then .lit cp else .enc cp)

/-- The rendered text of a block of consecutive re-encoded code points. -/
def encBlock (cps : List Char) : List Char :=
  (cps.map (fun cp => NormAtom.render (.enc cp))).flatten

end Iri

namespace Iri

/-! ## Helper lemmas: characters and UTF-8 -/

theorem char_valid_cases (c : Char) :
    c.toNat < 0xD800 ∨ (0xDFFF < c.toNat ∧ c.toNat < 0x110000) := by
  have h := c.valid
  unfold UInt32.isValidChar Nat.isValidChar at h
  rcases h with h | ⟨h1, h2⟩
  · exact Or.inl (by simpa [Char.toNat, UInt32.lt_def] using h)
  · exact Or.inr ⟨by simpa [Char.toNat, UInt32.lt_def] using h1,
      by simpa [Char.toNat, UInt32.lt_def] using h2⟩

theorem toNat_ofNat_valid (n : Nat) (h : n.isValidChar) : (Char.ofNat n).toNat = n := by
  simp [Char.ofNat, h, Char.ofNatAux, Char.toNat, UInt32.toNat, UInt32.ofNat',
    BitVec.toNat_ofNatLt]

theorem toNat_runeError : runeError.toNat = 0xFFFD := by decide

theorem isCont_of (b : Nat) (h1 : 0x80 ≤ b) (h2 : b ≤ 0xBF) : isCont b = true := by
  simp only [isCont, Bool.and_eq_true, decide_eq_true_eq]
  omega

/-- Decoding an encoded scalar value recovers it together with its
encoded length, whatever follows. -/
theorem decodeRune_encode (c : Char) (t : List Nat) :
    decodeRune (utf8Encode c ++ t) = (c, (utf8Encode c).length) := by
  have hv := char_valid_cases c
  by_cases h1 : c.toNat < 0x80
  · have hb : utf8Encode c = [c.toNat] := by simp [utf8Encode, h1]
    rw [hb, List.cons_append, List.nil_append]
    simp [decodeRune, h1, Char.ofNat_toNat]
  · by_cases h2 : c.toNat < 0x800
    · have hb : utf8Encode c = [0xC0 + c.toNat / 64, 0x80 + c.toNat % 64] := by
        simp [utf8Encode, h1, h2]
      have hchar : Char.ofNat (c.toNat / 64 * 64 + c.toNat % 64) = c := by
        rw [show c.toNat / 64 * 64 + c.toNat % 64 = c.toNat from by omega, Char.ofNat_toNat]
      have hcont := isCont_of (0x80 + c.toNat % 64) (by omega) (by omega)
      rw [hb, List.cons_append, List.cons_append, List.nil_append]
      simp [decodeRune, hchar, hcont, show ¬(0xC0 + c.toNat / 64 < 0x80) from by omega,
        show 0xC2 ≤ 0xC0 + c.toNat / 64 from by omega,
        show 0xC0 + c.toNat / 64 ≤ 0xDF from by omega]
    · by_cases h3 : c.toNat < 0x10000
      · have hb : utf8Encode c =
            [0xE0 + c.toNat / 4096, 0x80 + c.toNat / 64 % 64, 0x80 + c.toNat % 64] := by
          simp [utf8Encode, h1, h2, h3]
        have hchar : Char.ofNat
            (c.toNat / 4096 * 4096 + c.toNat / 64 % 64 * 64 + c.toNat % 64) = c := by
          rw [show c.toNat / 4096 * 4096 + c.toNat / 64 % 64 * 64 + c.toNat % 64 =
            c.toNat from by omega, Char.ofNat_toNat]
        have hacc : accept3 (0xE0 + c.toNat / 4096) (0x80 + c.toNat / 64 % 64) = true := by
          unfold accept3
          by_cases hE : (0xE0 + c.toNat / 4096) = 0xE0
          · rw [if_pos hE]
            simp only [Bool.and_eq_true, decide_eq_true_eq]
            omega
          · rw [if_neg hE]
            by_cases hED : (0xE0 + c.toNat / 4096) = 0xED
            · rw [if_pos hED]
              simp only [Bool.and_eq_true, decide_eq_true_eq]
              rcases hv with hv | hv <;> omega
            · rw [if_neg hED]
              exact isCont_of _ (by omega) (by omega)
        have hcont := isCont_of (0x80 + c.toNat % 64) (by omega) (by omega)
        rw [hb, List.cons_append, List.cons_append, List.cons_append, List.nil_append]
        simp [decodeRune, hchar, hacc, hcont,
          show ¬(0xE0 + c.toNat / 4096 < 0x80) from by omega,
          show ¬(0xC2 ≤ 0xE0 + c.toNat / 4096 ∧ 0xE0 + c.toNat / 4096 ≤ 0xDF) from by omega,
          show 0xE0 ≤ 0xE0 + c.toNat / 4096 from by omega,
          show 0xE0 + c.toNat / 4096 ≤ 0xEF from by omega]
      · have h4 : c.toNat < 0x110000 := by rcases hv with hv | hv <;> omega
        have hb : utf8Encode c =
            [0xF0 + c.toNat / 262144, 0x80 + c.toNat / 4096 % 64,
             0x80 + c.toNat / 64 % 64, 0x80 + c.toNat % 64] := by
          simp [utf8Encode, h1, h2, h3]
        have hchar : Char.ofNat (c.toNat / 262144 * 262144 + c.toNat / 4096 % 64 * 4096 +
            c.toNat / 64 % 64 * 64 + c.toNat % 64) = c := by
          rw [show c.toNat / 262144 * 262144 + c.toNat / 4096 % 64 * 4096 +
            c.toNat / 64 % 64 * 64 + c.toNat % 64 = c.toNat from by omega, Char.ofNat_toNat]
        have hacc : accept4 (0xF0 + c.toNat / 262144) (0x80 + c.toNat / 4096 % 64) = true := by
          unfold accept4
          by_cases hF0 : (0xF0 + c.toNat / 262144) = 0xF0
          · rw [if_pos hF0]
            simp only [Bool.and_eq_true, decide_eq_true_eq]
            omega
          · rw [if_neg hF0]
            by_cases hF4 : (0xF0 + c.toNat / 262144) = 0xF4
            · rw [if_pos hF4]
              simp only [Bool.and_eq_true, decide_eq_true_eq]
              omega
            · rw [if_neg hF4]
              exact isCont_of _ (by omega) (by omega)
        have hcont2 := isCont_of (0x80 + c.toNat / 64 % 64) (by omega) (by omega)
        have hcont3 := isCont_of (0x80 + c.toNat % 64) (by omega) (by omega)
        rw [hb, List.cons_append, List.cons_append, List.cons_append, List.cons_append,
          List.nil_append]
        simp [decodeRune, hchar, hacc, hcont2, hcont3,
          show ¬(0xF0 + c.toNat / 262144 < 0x80) from by omega,
          show ¬(0xC2 ≤ 0xF0 + c.toNat / 262144 ∧ 0xF0 + c.toNat / 262144 ≤ 0xDF) from by omega,
          show ¬(0xE0 ≤ 0xF0 + c.toNat / 262144 ∧ 0xF0 + c.toNat / 262144 ≤ 0xEF) from by omega,
          show 0xF0 ≤ 0xF0 + c.toNat / 262144 from by omega,
          show 0xF0 + c.toNat / 262144 ≤ 0xF4 from by omega]

set_option maxRecDepth 4000 in
set_option maxHeartbeats 1000000 in
/-- A successful, non-`RuneError` decode consumes exactly the encoding of
the decoded scalar value. -/
theorem decodeRune_spec (l : List Nat) (cp : Char) (n : Nat)
    (h : decodeRune l = (cp, n)) (hne : cp ≠ runeError) :
    l.take n = utf8Encode cp ∧ (utf8Encode cp).length = n ∧ 1 ≤ n := by
  match l with
  | [] =>
    unfold decodeRune at h
    cases h
    exact absurd rfl hne
  | b0 :: rest =>
    unfold decodeRune at h
    repeat' split at h
    all_goals cases h
    all_goals try exact absurd rfl hne
    · rename_i b0' rest0 heq h1
      rw [heq]
      have hval : (Char.ofNat b0').toNat = b0' :=
        toNat_ofNat_valid _ (by unfold Nat.isValidChar; omega)
      have henc : utf8Encode (Char.ofNat b0') = [b0'] := by
        simp [utf8Encode, hval, h1]
      rw [henc]
      exact ⟨rfl, rfl, by omega⟩
    · rename_i b0' hlt hrange rest0 b1 tail heq hcont
      rw [heq]
      simp only [Bool.and_eq_true, decide_eq_true_eq] at hrange
      simp only [isCont, Bool.and_eq_true, decide_eq_true_eq] at hcont
      have hval : (Char.ofNat ((b0' - 192) * 64 + (b1 - 128))).toNat =
          (b0' - 192) * 64 + (b1 - 128) :=
        toNat_ofNat_valid _ (by unfold Nat.isValidChar; omega)
      have henc : utf8Encode (Char.ofNat ((b0' - 192) * 64 + (b1 - 128))) =
          [0xC0 + ((b0' - 192) * 64 + (b1 - 128)) / 64,
           0x80 + ((b0' - 192) * 64 + (b1 - 128)) % 64] := by
        simp [utf8Encode, hval,
          show ¬((b0' - 192) * 64 + (b1 - 128) < 0x80) from by omega,
          show (b0' - 192) * 64 + (b1 - 128) < 0x800 from by omega]
      rw [henc]
      have htake : List.take 2 (b0' :: b1 :: tail) = [b0', b1] := rfl
      rw [htake]
      refine ⟨?_, rfl, by omega⟩
      simp only [List.cons.injEq, and_true]
      omega
    · rename_i b0' hlt hr2 hr3 rest0 b1 b2 tail heq hacc
      rw [heq]
      simp only [Bool.and_eq_true] at hacc
      obtain ⟨hacc1, hacc2⟩ := hacc
      simp only [isCont, Bool.and_eq_true, decide_eq_true_eq] at hacc2
      simp only [Bool.and_eq_true, decide_eq_true_eq] at hr3
      have hranges : (0xA0 ≤ b1 ∧ b1 ≤ 0xBF ∧ b0' = 0xE0) ∨
          (0x80 ≤ b1 ∧ b1 ≤ 0x9F ∧ b0' = 0xED) ∨
          (0x80 ≤ b1 ∧ b1 ≤ 0xBF ∧ b0' ≠ 0xE0 ∧ b0' ≠ 0xED) := by
        unfold accept3 at hacc1
        split at hacc1
        · simp only [Bool.and_eq_true, decide_eq_true_eq] at hacc1
          exact Or.inl ⟨hacc1.1, hacc1.2, by assumption⟩
        · split at hacc1
          · simp only [Bool.and_eq_true, decide_eq_true_eq] at hacc1
            exact Or.inr (Or.inl ⟨hacc1.1, hacc1.2, by assumption⟩)
          · simp only [isCont, Bool.and_eq_true, decide_eq_true_eq] at hacc1
            exact Or.inr (Or.inr ⟨hacc1.1, hacc1.2, by assumption, by assumption⟩)
      have hval : (Char.ofNat ((b0' - 224) * 4096 + (b1 - 128) * 64 + (b2 - 128))).toNat =
          (b0' - 224) * 4096 + (b1 - 128) * 64 + (b2 - 128) :=
        toNat_ofNat_valid _ (by
          unfold Nat.isValidChar
          rcases hranges with ⟨u1, u2, u3⟩ | ⟨u1, u2, u3⟩ | ⟨u1, u2, u3, u4⟩ <;> omega)
      have henc : utf8Encode (Char.ofNat ((b0' - 224) * 4096 + (b1 - 128) * 64 + (b2 - 128))) =
          [0xE0 + ((b0' - 224) * 4096 + (b1 - 128) * 64 + (b2 - 128)) / 4096,
           0x80 + ((b0' - 224) * 4096 + (b1 - 128) * 64 + (b2 - 128)) / 64 % 64,
           0x80 + ((b0' - 224) * 4096 + (b1 - 128) * 64 + (b2 - 128)) % 64] := by
        rcases hranges with ⟨u1, u2, u3⟩ | ⟨u1, u2, u3⟩ | ⟨u1, u2, u3, u4⟩ <;>
          simp [utf8Encode, hval,
            show ¬((b0' - 224) * 4096 + (b1 - 128) * 64 + (b2 - 128) < 0x80) from by omega,
            show ¬((b0' - 224) * 4096 + (b1 - 128) * 64 + (b2 - 128) < 0x800) from by omega,
            show (b0' - 224) * 4096 + (b1 - 128) * 64 + (b2 - 128) < 0x10000 from by omega]
      rw [henc]
      have htake : List.take 3 (b0' :: b1 :: b2 :: tail) = [b0', b1, b2] := rfl
      rw [htake]
      refine ⟨?_, rfl, by omega⟩
      simp only [List.cons.injEq, and_true]
      rcases hranges with ⟨u1, u2, u3⟩ | ⟨u1, u2, u3⟩ | ⟨u1, u2, u3, u4⟩ <;> omega
    · rename_i b0' hlt hr2 hr3 hr4 rest0 b1 b2 b3 tail heq hacc
      rw [heq]
      simp only [Bool.and_eq_true] at hacc
      obtain ⟨⟨hacc1, hacc2⟩, hacc3⟩ := hacc
      simp only [isCont, Bool.and_eq_true, decide_eq_true_eq] at hacc2 hacc3
      simp only [Bool.and_eq_true, decide_eq_true_eq] at hr4
      have hranges : (0x90 ≤ b1 ∧ b1 ≤ 0xBF ∧ b0' = 0xF0) ∨
          (0x80 ≤ b1 ∧ b1 ≤ 0x8F ∧ b0' = 0xF4) ∨
          (0x80 ≤ b1 ∧ b1 ≤ 0xBF ∧ b0' ≠ 0xF0 ∧ b0' ≠ 0xF4) := by
        unfold accept4 at hacc1
        split at hacc1
        · simp only [Bool.and_eq_true, decide_eq_true_eq] at hacc1
          exact Or.inl ⟨hacc1.1, hacc1.2, by assumption⟩
        · split at hacc1
          · simp only [Bool.and_eq_true, decide_eq_true_eq] at hacc1
            exact Or.inr (Or.inl ⟨hacc1.1, hacc1.2, by assumption⟩)
          · simp only [isCont, Bool.and_eq_true, decide_eq_true_eq] at hacc1
            exact Or.inr (Or.inr ⟨hacc1.1, hacc1.2, by assumption, by assumption⟩)
      have hval : (Char.ofNat ((b0' - 240) * 262144 + (b1 - 128) * 4096 +
          (b2 - 128) * 64 + (b3 - 128))).toNat =
          (b0' - 240) * 262144 + (b1 - 128) * 4096 + (b2 - 128) * 64 + (b3 - 128) :=
        toNat_ofNat_valid _ (by
          unfold Nat.isValidChar
          rcases hranges with ⟨u1, u2, u3⟩ | ⟨u1, u2, u3⟩ | ⟨u1, u2, u3, u4⟩ <;> omega)
      have henc : utf8Encode (Char.ofNat ((b0' - 240) * 262144 + (b1 - 128) * 4096 +
          (b2 - 128) * 64 + (b3 - 128))) =
          [0xF0 + ((b0' - 240) * 262144 + (b1 - 128) * 4096 + (b2 - 128) * 64 + (b3 - 128)) / 262144,
           0x80 + ((b0' - 240) * 262144 + (b1 - 128) * 4096 + (b2 - 128) * 64 + (b3 - 128)) / 4096 % 64,
           0x80 + ((b0' - 240) * 262144 + (b1 - 128) * 4096 + (b2 - 128) * 64 + (b3 - 128)) / 64 % 64,
           0x80 + ((b0' - 240) * 262144 + (b1 - 128) * 4096 + (b2 - 128) * 64 + (b3 - 128)) % 64] := by
        rcases hranges with ⟨u1, u2, u3⟩ | ⟨u1, u2, u3⟩ | ⟨u1, u2, u3, u4⟩ <;>
          simp [utf8Encode, hval,
            show ¬((b0' - 240) * 262144 + (b1 - 128) * 4096 + (b2 - 128) * 64 + (b3 - 128)
              < 0x80) from by omega,
            show ¬((b0' - 240) * 262144 + (b1 - 128) * 4096 + (b2 - 128) * 64 + (b3 - 128)
              < 0x800) from by omega,
            show ¬((b0' - 240) * 262144 + (b1 - 128) * 4096 + (b2 - 128) * 64 + (b3 - 128)
              < 0x10000) from by omega]
      rw [henc]
      have htake : List.take 4 (b0' :: b1 :: b2 :: b3 :: tail) = [b0', b1, b2, b3] := rfl
      rw [htake]
      refine ⟨?_, rfl, by omega⟩
      simp only [List.cons.injEq, and_true]
      rcases hranges with ⟨u1, u2, u3⟩ | ⟨u1, u2, u3⟩ | ⟨u1, u2, u3, u4⟩ <;> omega

theorem decodeRune_size_pos (b0 : Nat) (rest : List Nat) :
    1 ≤ (decodeRune (b0 :: rest)).2 := by
  unfold decodeRune
  repeat' split
  all_goals simp_all

theorem normalizeOctetsF_fuel :
    ∀ (k : Nat) (l : List Nat), l.length ≤ k → ∀ f1 f2, l.length ≤ f1 → l.length ≤ f2 →
    normalizeOctetsF f1 l = normalizeOctetsF f2 l := by
  intro k
  induction k with
  | zero =>
    intro l hl f1 f2 _ _
    have : l = [] := by cases l <;> simp_all
    subst this
    cases f1 <;> cases f2 <;> rfl
  | succ k ih =>
    intro l hl f1 f2 h1 h2
    match l with
    | [] => cases f1 <;> cases f2 <;> rfl
    | b0 :: rest =>
      cases f1 with
      | zero => simp at h1
      | succ f1' =>
        cases f2 with
        | zero => simp at h2
        | succ f2' =>
          simp only [normalizeOctetsF]
          have hd := decodeRune_size_pos b0 rest
          have ihr := ih ((b0 :: rest).drop (decodeRune (b0 :: rest)).2)
            (by simp only [List.length_drop, List.length_cons] at *; omega) f1' f2'
            (by simp only [List.length_drop, List.length_cons] at *; omega)
            (by simp only [List.length_drop, List.length_cons] at *; omega)
          rw [ihr]

/-- The defining step of `normalizeOctets` on a non-empty octet list. -/
theorem normalizeOctets_cons (b0 : Nat) (rest : List Nat) :
    normalizeOctets (b0 :: rest) =
      (if (decodeRune (b0 :: rest)).1 = runeError then none
       else
         match normalizeOctets ((b0 :: rest).drop (decodeRune (b0 :: rest)).2) with
         | none => none
         | some tail => some (emitCp (decodeRune (b0 :: rest)).1 ++ tail)) := by
  unfold normalizeOctets
  simp only [List.length_cons, normalizeOctetsF]
  have hd := decodeRune_size_pos b0 rest
  rw [normalizeOctetsF_fuel ((b0 :: rest).drop (decodeRune (b0 :: rest)).2).length
    ((b0 :: rest).drop (decodeRune (b0 :: rest)).2) (by omega) rest.length
    ((b0 :: rest).drop (decodeRune (b0 :: rest)).2).length
    (by simp only [List.length_drop, List.length_cons]; omega) (by omega)]

/-- Normalizing the encoding of a non-`RuneError` scalar emits it and
continues. -/
theorem normalizeOctets_encode (c : Char) (hne : c ≠ runeError) (t : List Nat) :
    normalizeOctets (utf8Encode c ++ t) =
      (normalizeOctets t).map (fun x => emitCp c ++ x) := by
  have hdecfull := decodeRune_encode c t
  match henc : utf8Encode c with
  | [] =>
    exact absurd henc (by
      by_cases h1 : c.toNat < 0x80
      · simp [utf8Encode, h1]
      · by_cases h2 : c.toNat < 0x800
        · simp [utf8Encode, h1, h2]
        · by_cases h3 : c.toNat < 0x10000
          · simp [utf8Encode, h1, h2, h3]
          · simp [utf8Encode, h1, h2, h3])
  | e0 :: erest =>
    rw [henc] at hdecfull
    rw [List.cons_append] at hdecfull ⊢
    rw [normalizeOctets_cons, hdecfull]
    have hdrop : (e0 :: (erest ++ t)).drop (e0 :: erest).length = t := by
      rw [← List.cons_append, List.drop_left]
    simp only [hdrop, if_neg hne]
    cases normalizeOctets t <;> rfl

/-- A successful run normalization decomposes the octets into encoded
scalar values, none of them `RuneError`, and the output into their
emissions. -/
theorem normalizeOctets_some :
    ∀ (k : Nat) (l : List Nat), l.length ≤ k →
    ∀ out, normalizeOctets l = some out →
    ∃ cps : List Char, l = (cps.map utf8Encode).flatten ∧
      out = (cps.map emitCp).flatten ∧ ∀ cp ∈ cps, cp ≠ runeError := by
  intro k
  induction k with
  | zero =>
    intro l hl out h
    have : l = [] := by cases l <;> simp_all
    subst this
    unfold normalizeOctets normalizeOctetsF at h
    cases h
    exact ⟨[], by simp, by simp, by simp⟩
  | succ k ih =>
    intro l hl out h
    match l with
    | [] =>
      unfold normalizeOctets normalizeOctetsF at h
      cases h
      exact ⟨[], by simp, by simp, by simp⟩
    | b0 :: rest =>
      rw [normalizeOctets_cons] at h
      obtain ⟨cp, n, hdec⟩ : ∃ cp n, decodeRune (b0 :: rest) = (cp, n) :=
        ⟨(decodeRune (b0 :: rest)).1, (decodeRune (b0 :: rest)).2, rfl⟩
      rw [hdec] at h
      split at h
      · exact absurd h (by simp)
      · rename_i hne
        split at h
        · exact absurd h (by simp)
        · rename_i tail htail
          cases h
          obtain ⟨hd1, hd2, hd3⟩ := decodeRune_spec (b0 :: rest) cp n hdec hne
          obtain ⟨cps, hcs1, hcs2, hcs3⟩ :=
            ih ((b0 :: rest).drop n)
              (by simp only [List.length_drop, List.length_cons] at *; omega) tail htail
          refine ⟨cp :: cps, ?_, ?_, ?_⟩
          · calc b0 :: rest
                = (b0 :: rest).take n ++ (b0 :: rest).drop n :=
                  (List.take_append_drop _ _).symm
              _ = utf8Encode cp ++ (cps.map utf8Encode).flatten := by rw [hd1, hcs1]
              _ = ((cp :: cps).map utf8Encode).flatten := by simp
          · simp [hcs2]
          · intro c0 hc0
            rcases List.mem_cons.mp hc0 with rfl | hmem
            · exact hne
            · exact hcs3 c0 hmem

/-! ## Helper lemmas: percent triples and the run scanner -/

theorem upperHexDigit_isHex : ∀ m, m < 16 → isHexDigit (upperHexDigit m) = true := by decide

theorem upperHexDigit_toUpper : ∀ m, m < 16 → (upperHexDigit m).toUpper = upperHexDigit m := by
  decide

theorem hexToByte_upperHex : ∀ hi, hi < 16 → ∀ lo, lo < 16 →
    hexToByte (upperHexDigit hi) (upperHexDigit lo) = some (16 * hi + lo) := by decide

theorem utf8Encode_lt_256 (c : Char) : ∀ b ∈ utf8Encode c, b < 256 := by
  have hv := char_valid_cases c
  intro b hb
  by_cases h1 : c.toNat < 0x80
  · simp [utf8Encode, h1] at hb
    omega
  · by_cases h2 : c.toNat < 0x800
    · simp [utf8Encode, h1, h2] at hb
      rcases hb with hb | hb <;> omega
    · by_cases h3 : c.toNat < 0x10000
      · simp [utf8Encode, h1, h2, h3] at hb
        rcases hb with hb | hb | hb <;> omega
      · simp [utf8Encode, h1, h2, h3] at hb
        rcases hb with hb | hb | hb | hb <;> omega

theorem octetsFrom_pctTriple (b : Nat) (hb : b < 256) (m : List Char) :
    octetsFrom (pctTriple b ++ m) = b :: octetsFrom m := by
  have h1 : b / 16 < 16 := by omega
  have h2 : b % 16 < 16 := by omega
  simp only [pctTriple, List.cons_append, List.nil_append, octetsFrom,
    upperHexDigit_toUpper _ h1, upperHexDigit_toUpper _ h2,
    hexToByte_upperHex _ h1 _ h2, Option.getD_some]
  congr 1
  omega

theorem isTriples_pctTriple (b : Nat) (hb : b < 256) (m : List Char)
    (hm : isTriples m = true) : isTriples (pctTriple b ++ m) = true := by
  have h1 : b / 16 < 16 := by omega
  have h2 : b % 16 < 16 := by omega
  simp [pctTriple, isTriples, upperHexDigit_isHex _ h1, upperHexDigit_isHex _ h2, hm]

theorem isTriples_flatten_pctTriples (bs : List Nat) (m : List Char) :
    (∀ b ∈ bs, b < 256) → isTriples m = true →
    isTriples ((bs.map pctTriple).flatten ++ m) = true := by
  induction bs with
  | nil => intro _ hm; simpa using hm
  | cons b bs ih =>
    intro h hm
    simp only [List.map_cons, List.flatten_cons, List.append_assoc]
    exact isTriples_pctTriple b (h b (by simp)) _ (ih (fun x hx => h x (by simp [hx])) hm)

theorem octetsFrom_flatten_pctTriples (bs : List Nat) (m : List Char) :
    (∀ b ∈ bs, b < 256) →
    octetsFrom ((bs.map pctTriple).flatten ++ m) = bs ++ octetsFrom m := by
  induction bs with
  | nil => intro _; simp
  | cons b bs ih =>
    intro h
    simp only [List.map_cons, List.flatten_cons, List.append_assoc]
    rw [octetsFrom_pctTriple b (h b (by simp)), ih (fun x hx => h x (by simp [hx]))]
    simp

theorem isTriples_encBlock (cps : List Char) (m : List Char) (hm : isTriples m = true) :
    isTriples (encBlock cps ++ m) = true := by
  induction cps with
  | nil => simpa [encBlock] using hm
  | cons c cs ih =>
    simp only [encBlock, List.map_cons, List.flatten_cons, List.append_assoc, NormAtom.render]
    exact isTriples_flatten_pctTriples _ _ (utf8Encode_lt_256 c) (by
      simpa [encBlock] using ih)

theorem octetsFrom_encBlock (cps : List Char) (m : List Char) :
    octetsFrom (encBlock cps ++ m) = (cps.map utf8Encode).flatten ++ octetsFrom m := by
  induction cps with
  | nil => simp [encBlock]
  | cons c cs ih =>
    simp only [encBlock, List.map_cons, List.flatten_cons, List.append_assoc, NormAtom.render]
    rw [octetsFrom_flatten_pctTriples _ _ (utf8Encode_lt_256 c)]
    simp only [encBlock, NormAtom.render] at ih
    rw [ih]

theorem normalizeOctets_emit_all (cps : List Char) :
    (∀ cp ∈ cps, cp ≠ runeError) →
    normalizeOctets ((cps.map utf8Encode).flatten) = some ((cps.map emitCp).flatten) := by
  induction cps with
  | nil => intro _; rfl
  | cons c cs ih =>
    intro h
    simp only [List.map_cons, List.flatten_cons]
    rw [normalizeOctets_encode c (h c (by simp)), ih (fun x hx => h x (by simp [hx]))]
    rfl

theorem normalizeOctets_encBlock (cps : List Char)
    (h : ∀ cp ∈ cps, iunreservedChar cp = false ∧ cp ≠ runeError) :
    normalizeOctets (octetsFrom (encBlock cps)) = some (encBlock cps) := by
  have h0 : octetsFrom (encBlock cps) = (cps.map utf8Encode).flatten := by
    have h1 := octetsFrom_encBlock cps []
    simpa [octetsFrom] using h1
  rw [h0, normalizeOctets_emit_all cps (fun cp hcp => (h cp hcp).2)]
  congr 1
  unfold encBlock
  congr 1
  exact List.map_congr_left (fun cp hcp => by simp [emitCp, (h cp hcp).1, NormAtom.render])

theorem scanPct_nil_nil : scanPct [] [] = some [] := rfl

theorem normalizeOctets_octetsFrom_nil : normalizeOctets (octetsFrom []) = some [] := rfl

theorem scanPct_cons_lit (c : Char) (hc : ¬c = '%') (l : List Char) :
    scanPct [] (c :: l) = (scanPct [] l).map (fun t => c :: t) := by
  match l with
  | [] => rfl
  | [x] => rfl
  | x :: y :: r =>
    simp only [scanPct]
    rw [if_neg (by simp [hc])]
    rw [normalizeOctets_octetsFrom_nil]
    cases hs : scanPct [] (x :: y :: r) <;> simp [hs]

theorem scanPct_flush (acc m : List Char) (hm : isRunStart m = false) :
    scanPct acc m = (normalizeOctets (octetsFrom acc)).bind
      (fun out => (scanPct [] m).map (fun t => out ++ t)) := by
  match m with
  | [] =>
    simp only [scanPct]
    rw [normalizeOctets_octetsFrom_nil]
    cases h : normalizeOctets (octetsFrom acc) <;> simp [h]
  | [x] =>
    simp only [scanPct]
    rw [normalizeOctets_octetsFrom_nil]
    cases h : normalizeOctets (octetsFrom acc) <;> simp [h]
  | [x, y] =>
    simp only [scanPct]
    rw [normalizeOctets_octetsFrom_nil]
    cases h : normalizeOctets (octetsFrom acc) <;> simp [h]
  | x :: y :: z :: r =>
    have hx : ¬(decide (x = '%') && isHexDigit y && isHexDigit z) = true := by
      simpa [isRunStart] using hm
    simp only [scanPct]
    rw [if_neg hx, if_neg hx]
    rw [normalizeOctets_octetsFrom_nil]
    cases h1 : normalizeOctets (octetsFrom acc) <;>
      cases h2 : scanPct [] (y :: z :: r) <;> simp [h1, h2]

theorem scanPct_triples :
    ∀ (k : Nat) (r : List Char), r.length ≤ k → isTriples r = true →
    ∀ acc m, scanPct acc (r ++ m) = scanPct (acc ++ r) m := by
  intro k
  induction k with
  | zero =>
    intro r hk hr acc m
    have : r = [] := by cases r <;> simp_all
    subst this
    simp
  | succ k ih =>
    intro r hk hr acc m
    match r with
    | [] => simp
    | [c] => simp [isTriples] at hr
    | [c, d] => simp [isTriples] at hr
    | c :: h1 :: h2 :: rest =>
      simp only [isTriples, Bool.and_eq_true, decide_eq_true_eq] at hr
      obtain ⟨⟨⟨hc, hh1⟩, hh2⟩, hrest⟩ := hr
      simp only [List.cons_append, scanPct]
      rw [if_pos (by simp [hc, hh1, hh2])]
      simp only [List.append_eq]
      have ih2 := ih rest (by simp at hk; omega) (by simpa [isTriples] using hrest)
        (acc ++ [c, h1, h2]) m
      rw [ih2]
      congr 1
      simp

/-! ## Helper lemmas: well-formed percent text and normalizer atoms -/

theorem iunres_ne_pct (c : Char) (h : iunreservedChar c = true) : c ≠ '%' := by
  intro hc
  rw [hc] at h
  exact absurd h (by decide)

theorem pctWF_drop_lit (c : Char) (rest : List Char) (hc : ¬c = '%')
    (h : pctWellFormed (c :: rest) = true) : pctWellFormed rest = true := by
  rw [pctWellFormed.eq_def] at h
  simpa [hc] using h

theorem pctWF_short (l : List Char) (hlen : l.length ≤ 2)
    (h : pctWellFormed l = true) : ∀ c ∈ l, c ≠ '%' := by
  match l with
  | [] => simp
  | [c] =>
    intro x hx
    rcases List.mem_singleton.mp hx with rfl
    intro hc
    subst hc
    simp [pctWellFormed] at h
  | [c, d] =>
    intro x hx
    by_cases hc : c = '%'
    · subst hc
      simp [pctWellFormed] at h
    · rcases List.mem_cons.mp hx with rfl | hx2
      · exact hc
      · rcases List.mem_cons.mp hx2 with rfl | hx3
        · intro hd
          subst hd
          simp [pctWellFormed, hc] at h
        · simp at hx3
  | _ :: _ :: _ :: _ => simp at hlen

theorem renderAtoms_append (a b : List NormAtom) :
    renderAtoms (a ++ b) = renderAtoms a ++ renderAtoms b := by
  simp [renderAtoms]

theorem renderAtoms_atomsOfCps (cps : List Char) :
    renderAtoms (atomsOfCps cps) = (cps.map emitCp).flatten := by
  unfold renderAtoms atomsOfCps
  rw [List.map_map]
  congr 1
  apply List.map_congr_left
  intro cp _
  by_cases h : iunreservedChar cp = true <;> simp [h, emitCp, NormAtom.render]

theorem atomsOfCps_good (cps : List Char) (h : ∀ cp ∈ cps, cp ≠ runeError) :
    ∀ a ∈ atomsOfCps cps, a.good := by
  intro a ha
  obtain ⟨cp, hcp, rfl⟩ := List.mem_map.mp ha
  by_cases hiu : iunreservedChar cp = true
  · simp only [hiu, if_pos]
    simp only [NormAtom.good]
    exact iunres_ne_pct cp hiu
  · simp only [Bool.not_eq_true] at hiu
    simp only [hiu, Bool.false_eq_true, if_false]
    exact ⟨hiu, h cp hcp⟩

theorem renderAtoms_lits (l : List Char) :
    renderAtoms (l.map NormAtom.lit) = l := by
  induction l with
  | nil => rfl
  | cons c rest ih =>
    simp only [renderAtoms, List.map_cons, List.flatten_cons, NormAtom.render] at ih ⊢
    rw [ih]
    rfl

/-- Every successful scan of well-formed percent text renders to a list of
good atoms. -/
theorem scanPct_atoms :
    ∀ (k : Nat) (l : List Char), l.length ≤ k → ∀ (acc : List Char),
    pctWellFormed l = true → ∀ out, scanPct acc l = some out →
    ∃ atoms : List NormAtom, (∀ a ∈ atoms, a.good) ∧ out = renderAtoms atoms := by
  intro k
  induction k with
  | zero =>
    intro l hk acc hwf out h
    have : l = [] := by cases l <;> simp_all
    subst this
    simp only [scanPct] at h
    split at h
    · rename_i out1 hout1
      cases h
      obtain ⟨cps, _, hc2, hc3⟩ :=
        normalizeOctets_some (octetsFrom acc).length _ le_rfl _ hout1
      exact ⟨atomsOfCps cps, atomsOfCps_good cps hc3, by
        rw [renderAtoms_atomsOfCps, ← hc2]; simp⟩
    · exact absurd h (by simp)
  | succ k ih =>
    intro l hk acc hwf out h
    match l with
    | [] =>
      simp only [scanPct] at h
      split at h
      · rename_i out1 hout1
        cases h
        obtain ⟨cps, _, hc2, hc3⟩ :=
          normalizeOctets_some (octetsFrom acc).length _ le_rfl _ hout1
        exact ⟨atomsOfCps cps, atomsOfCps_good cps hc3, by
          rw [renderAtoms_atomsOfCps, ← hc2]; simp⟩
      · exact absurd h (by simp)
    | [c] =>
      simp only [scanPct] at h
      split at h
      · rename_i out1 hout1
        cases h
        obtain ⟨cps, _, hc2, hc3⟩ :=
          normalizeOctets_some (octetsFrom acc).length _ le_rfl _ hout1
        refine ⟨atomsOfCps cps ++ [c].map NormAtom.lit, ?_, ?_⟩
        · intro a ha
          rcases List.mem_append.mp ha with ha | ha
          · exact atomsOfCps_good cps hc3 a ha
          · obtain ⟨x, hx, rfl⟩ := List.mem_map.mp ha
            simp only [NormAtom.good]
            exact pctWF_short [c] (by simp) hwf x hx
        · rw [renderAtoms_append, renderAtoms_atomsOfCps, renderAtoms_lits, ← hc2]
      · exact absurd h (by simp)
    | [c, d] =>
      simp only [scanPct] at h
      split at h
      · rename_i out1 hout1
        cases h
        obtain ⟨cps, _, hc2, hc3⟩ :=
          normalizeOctets_some (octetsFrom acc).length _ le_rfl _ hout1
        refine ⟨atomsOfCps cps ++ [c, d].map NormAtom.lit, ?_, ?_⟩
        · intro a ha
          rcases List.mem_append.mp ha with ha | ha
          · exact atomsOfCps_good cps hc3 a ha
          · obtain ⟨x, hx, rfl⟩ := List.mem_map.mp ha
            simp only [NormAtom.good]
            exact pctWF_short [c, d] (by simp) hwf x hx
        · rw [renderAtoms_append, renderAtoms_atomsOfCps, renderAtoms_lits, ← hc2]
      · exact absurd h (by simp)
    | c :: h1 :: h2 :: rest =>
      simp only [scanPct] at h
      split at h
      · rename_i htriple
        have hwf2 : pctWellFormed rest = true := by
          simp only [Bool.and_eq_true, decide_eq_true_eq] at htriple
          obtain ⟨⟨hc, _⟩, _⟩ := htriple
          have := hwf
          simp only [pctWellFormed, hc, if_pos] at this
          simp only [Bool.and_eq_true] at this
          exact this.2
        exact ih rest (by simp at hk ⊢; omega) (acc ++ [c, h1, h2]) hwf2 out h
      · rename_i htriple
        have hc : ¬c = '%' := by
          intro hc
          apply htriple
          have hw := hwf
          simp only [pctWellFormed, hc, if_pos] at hw
          simp only [Bool.and_eq_true] at hw
          simp [hc, hw.1.1, hw.1.2]
        have hwf2 : pctWellFormed (h1 :: h2 :: rest) = true := pctWF_drop_lit c _ hc hwf
        split at h
        · rename_i out1 tail hout1 htail
          cases h
          obtain ⟨cps, _, hc2, hc3⟩ :=
            normalizeOctets_some (octetsFrom acc).length _ le_rfl _ hout1
          obtain ⟨atoms2, hg2, rfl⟩ :=
            ih (h1 :: h2 :: rest) (by simp at hk ⊢; omega) [] hwf2 tail htail
          refine ⟨atomsOfCps cps ++ .lit c :: atoms2, ?_, ?_⟩
          · intro a ha
            rcases List.mem_append.mp ha with ha | ha
            · exact atomsOfCps_good cps hc3 a ha
            · rcases List.mem_cons.mp ha with rfl | ha2
              · exact hc
              · exact hg2 a ha2
          · rw [renderAtoms_append, renderAtoms_atomsOfCps, ← hc2]
            simp [renderAtoms, NormAtom.render]
        · exact absurd h (by simp)

/-- Rendered good atoms are a fixed point of the scan, whatever block of
re-encoded code points is pending in the accumulator. -/
theorem scanPct_render_fix :
    ∀ (atoms : List NormAtom), (∀ a ∈ atoms, a.good) →
    ∀ (cps : List Char), (∀ cp ∈ cps, iunreservedChar cp = false ∧ cp ≠ runeError) →
    scanPct (encBlock cps) (renderAtoms atoms) =
      some (encBlock cps ++ renderAtoms atoms) := by
  intro atoms
  induction atoms with
  | nil =>
    intro _ cps hcps
    have hb := normalizeOctets_encBlock cps hcps
    have hfl : isRunStart ([] : List Char) = false := rfl
    rw [show renderAtoms [] = [] from rfl, scanPct_flush _ _ hfl, hb]
    rfl
  | cons a rest ih =>
    intro hgood cps hcps
    match a with
    | .lit c =>
      have hc : c ≠ '%' := by
        have hg := hgood (.lit c) (by simp)
        simpa [NormAtom.good] using hg
      have hren : renderAtoms (.lit c :: rest) = c :: renderAtoms rest := by
        simp [renderAtoms, NormAtom.render]
      have hfl : isRunStart (c :: renderAtoms rest) = false := by
        match hr : renderAtoms rest with
        | [] => rfl
        | [x] => rfl
        | x :: y :: r => simp [isRunStart, hc]
      rw [hren, scanPct_flush _ _ hfl, normalizeOctets_encBlock cps hcps,
        scanPct_cons_lit c hc]
      have ihe := ih (fun x hx => hgood x (by simp [hx])) [] (by simp)
      rw [show encBlock [] = [] from rfl] at ihe
      rw [ihe]
      simp
    | .enc c =>
      have hg : iunreservedChar c = false ∧ c ≠ runeError := by
        have hgg := hgood (.enc c) (by simp)
        simpa [NormAtom.good] using hgg
      have hren : renderAtoms (.enc c :: rest) =
          NormAtom.render (.enc c) ++ renderAtoms rest := by
        simp [renderAtoms]
      have htr : isTriples (NormAtom.render (.enc c)) = true := by
        have hb := isTriples_encBlock [c] [] rfl
        simpa [encBlock] using hb
      have hblk : encBlock cps ++ NormAtom.render (.enc c) = encBlock (cps ++ [c]) := by
        simp [encBlock]
      rw [hren, scanPct_triples (NormAtom.render (.enc c)).length _ le_rfl htr, hblk]
      have ihe := ih (fun x hx => hgood x (by simp [hx])) (cps ++ [c]) (by
        intro cp hcp
        rcases List.mem_append.mp hcp with hcp | hcp
        · exact hcps cp hcp
        · simp only [List.mem_singleton] at hcp
          subst hcp
          exact hg)
      rw [ihe, ← hblk]
      simp

/-- On well-formed percent text, a successful normalization is a fixed
point of the normalizer. -/
theorem normalizeComponent_fix (l out : List Char) (hwf : pctWellFormed l = true)
    (h : normalizeComponent l = some out) : normalizeComponent out = some out := by
  obtain ⟨atoms, hgood, rfl⟩ := scanPct_atoms l.length l le_rfl [] hwf _ h
  have hfix := scanPct_render_fix atoms hgood [] (by simp)
  rw [show encBlock [] = [] from rfl] at hfix
  simpa [normalizeComponent] using hfix

theorem isTriples_append3 :
    ∀ (k : Nat) (l : List Char), l.length ≤ k → isTriples l = true →
    ∀ c h1 h2, (decide (c = '%') && isHexDigit h1 && isHexDigit h2) = true →
    isTriples (l ++ [c, h1, h2]) = true := by
  intro k
  induction k with
  | zero =>
    intro l hk hl c h1 h2 hc
    have : l = [] := by cases l <;> simp_all
    subst this
    simp only [Bool.and_eq_true] at hc
    simp [isTriples, hc.1.1, hc.1.2, hc.2]
  | succ k ih =>
    intro l hk hl c h1 h2 hc
    match l with
    | [] =>
      simp only [Bool.and_eq_true] at hc
      simp [isTriples, hc.1.1, hc.1.2, hc.2]
    | [x] => simp [isTriples] at hl
    | [x, y] => simp [isTriples] at hl
    | x :: y :: z :: rest =>
      simp only [isTriples, Bool.and_eq_true] at hl
      simp only [List.cons_append, isTriples, Bool.and_eq_true]
      exact ⟨hl.1, ih rest (by simp at hk ⊢; omega) hl.2 c h1 h2 hc⟩

/-- A hex digit uppercases to an upper-hex digit (a key character of the
`hexToByte` table). -/
theorem isHexDigit_toUpper (c : Char) (h : isHexDigit c = true) :
    isUpperHexDigit c.toUpper = true := by
  simp only [isHexDigit, isDigitChar, Bool.or_eq_true, Bool.and_eq_true,
    decide_eq_true_eq] at h
  unfold Char.toUpper
  by_cases hlo : c.toNat ≥ 97 ∧ c.toNat ≤ 122
  · rw [if_pos hlo]
    have hv : (c.toNat - 32).isValidChar := by
      unfold Nat.isValidChar
      left
      omega
    simp only [isUpperHexDigit, isDigitChar, toNat_ofNat_valid _ hv, Bool.or_eq_true,
      Bool.and_eq_true, decide_eq_true_eq]
    rcases h with (h | h) | h
    · omega
    · omega
    · right
      omega
  · rw [if_neg hlo]
    simp only [isUpperHexDigit, isDigitChar, Bool.or_eq_true, Bool.and_eq_true,
      decide_eq_true_eq]
    rcases h with (h | h) | h
    · exact Or.inl h
    · exact Or.inr h
    · exact absurd ⟨by omega, by omega⟩ hlo

/-- On uppercased hex digits, the `hexToByte` map lookup always hits. -/
theorem hexToByte_toUpper_isSome (h1 h2 : Char) (ha : isHexDigit h1 = true)
    (hb : isHexDigit h2 = true) :
    ∃ b, hexToByte h1.toUpper h2.toUpper = some b := by
  unfold hexToByte
  rw [isHexDigit_toUpper _ ha, isHexDigit_toUpper _ hb]
  exact ⟨_, rfl⟩

/-- A successful checked decode agrees with the unchecked `octetsFrom` of
the source: no octet is zero-defaulted or dropped. -/
theorem octetsFromChecked_eq :
    ∀ (k : Nat) (l : List Char), l.length ≤ k →
    ∀ bs, octetsFromChecked l = some bs → octetsFrom l = bs := by
  intro k
  induction k with
  | zero =>
    intro l hk bs h
    have : l = [] := by cases l <;> simp_all
    subst this
    simp only [octetsFromChecked, Option.some.injEq] at h
    subst h
    rfl
  | succ k ih =>
    intro l hk bs h
    match l with
    | [] =>
      simp only [octetsFromChecked, Option.some.injEq] at h
      subst h
      rfl
    | [c] => simp [octetsFromChecked] at h
    | [c, d] => simp [octetsFromChecked] at h
    | c :: h1 :: h2 :: rest =>
      simp only [octetsFromChecked] at h
      split at h
      · rename_i hc
        split at h
        · rename_i b bs2 hb hbs2
          simp only [Option.some.injEq] at h
          subst h
          simp only [octetsFrom, hb, Option.getD_some]
          rw [ih rest (by simp at hk ⊢; omega) bs2 hbs2]
        · exact absurd h (by simp)
      · exact absurd h (by simp)

/-- On a chain of `%XX` triples the checked decode succeeds and produces
exactly one octet per triple. -/
theorem octetsFromChecked_triples :
    ∀ (k : Nat) (l : List Char), l.length ≤ k → isTriples l = true →
    ∃ bs, octetsFromChecked l = some bs ∧ 3 * bs.length = l.length := by
  intro k
  induction k with
  | zero =>
    intro l hk ht
    have : l = [] := by cases l <;> simp_all
    subst this
    exact ⟨[], rfl, rfl⟩
  | succ k ih =>
    intro l hk ht
    match l with
    | [] => exact ⟨[], rfl, rfl⟩
    | [c] => simp [isTriples] at ht
    | [c, d] => simp [isTriples] at ht
    | c :: h1 :: h2 :: rest =>
      simp only [isTriples, Bool.and_eq_true, decide_eq_true_eq] at ht
      obtain ⟨⟨⟨hc, hh1⟩, hh2⟩, hrest⟩ := ht
      obtain ⟨bs, hbs, hlen⟩ := ih rest (by simp at hk ⊢; omega) hrest
      obtain ⟨b, hb⟩ := hexToByte_toUpper_isSome h1 h2 hh1 hh2
      refine ⟨b :: bs, ?_, by simp at hlen ⊢; omega⟩
      simp only [octetsFromChecked, hc, if_pos, hb, hbs]

/-- Every maximal percent run collected by the scan is a non-empty chain of
triples, provided the pending accumulator is one. -/
theorem scanRuns_mem :
    ∀ (k : Nat) (l : List Char), l.length ≤ k → ∀ acc, isTriples acc = true →
    ∀ r ∈ scanRuns acc l, r ≠ [] ∧ isTriples r = true := by
  intro k
  induction k with
  | zero =>
    intro l hk acc hacc r hr
    have : l = [] := by cases l <;> simp_all
    subst this
    simp only [scanRuns] at hr
    split at hr
    · exact absurd hr (by simp)
    · rename_i hne
      rcases List.mem_singleton.mp hr with rfl
      exact ⟨by simpa [List.isEmpty_iff] using hne, hacc⟩
  | succ k ih =>
    intro l hk acc hacc r hr
    match l with
    | [] =>
      simp only [scanRuns] at hr
      split at hr
      · exact absurd hr (by simp)
      · rename_i hne
        rcases List.mem_singleton.mp hr with rfl
        exact ⟨by simpa [List.isEmpty_iff] using hne, hacc⟩
    | [c] =>
      simp only [scanRuns] at hr
      split at hr
      · exact absurd hr (by simp)
      · rename_i hne
        rcases List.mem_singleton.mp hr with rfl
        exact ⟨by simpa [List.isEmpty_iff] using hne, hacc⟩
    | [c, d] =>
      simp only [scanRuns] at hr
      split at hr
      · exact absurd hr (by simp)
      · rename_i hne
        rcases List.mem_singleton.mp hr with rfl
        exact ⟨by simpa [List.isEmpty_iff] using hne, hacc⟩
    | c :: h1 :: h2 :: rest =>
      simp only [scanRuns] at hr
      split at hr
      · rename_i htriple
        exact ih rest (by simp at hk ⊢; omega) (acc ++ [c, h1, h2])
          (isTriples_append3 acc.length acc le_rfl hacc c h1 h2 htriple) r hr
      · rcases List.mem_append.mp hr with hr | hr
        · split at hr
          · exact absurd hr (by simp)
          · rename_i hne
            rcases List.mem_singleton.mp hr with rfl
            exact ⟨by simpa [List.isEmpty_iff] using hne, hacc⟩
        · exact ih (h1 :: h2 :: rest) (by simp at hk ⊢; omega) [] rfl r hr

/-- A successful scan normalizes every maximal run it collected. -/
theorem scanPct_runs_some :
    ∀ (k : Nat) (l : List Char), l.length ≤ k → ∀ acc out,
    scanPct acc l = some out → ∀ r ∈ scanRuns acc l,
    ∃ o, normalizeOctets (octetsFrom r) = some o := by
  intro k
  induction k with
  | zero =>
    intro l hk acc out h r hr
    have : l = [] := by cases l <;> simp_all
    subst this
    simp only [scanPct] at h
    split at h
    · rename_i out1 hout1
      simp only [scanRuns] at hr
      split at hr
      · exact absurd hr (by simp)
      · rcases List.mem_singleton.mp hr with rfl
        exact ⟨out1, hout1⟩
    · exact absurd h (by simp)
  | succ k ih =>
    intro l hk acc out h r hr
    match l with
    | [] =>
      simp only [scanPct] at h
      split at h
      · rename_i out1 hout1
        simp only [scanRuns] at hr
        split at hr
        · exact absurd hr (by simp)
        · rcases List.mem_singleton.mp hr with rfl
          exact ⟨out1, hout1⟩
      · exact absurd h (by simp)
    | [c] =>
      simp only [scanPct] at h
      split at h
      · rename_i out1 hout1
        simp only [scanRuns] at hr
        split at hr
        · exact absurd hr (by simp)
        · rcases List.mem_singleton.mp hr with rfl
          exact ⟨out1, hout1⟩
      · exact absurd h (by simp)
    | [c, d] =>
      simp only [scanPct] at h
      split at h
      · rename_i out1 hout1
        simp only [scanRuns] at hr
        split at hr
        · exact absurd hr (by simp)
        · rcases List.mem_singleton.mp hr with rfl
          exact ⟨out1, hout1⟩
      · exact absurd h (by simp)
    | c :: h1 :: h2 :: rest =>
      simp only [scanPct] at h
      simp only [scanRuns] at hr
      by_cases htr : (c = '%' && isHexDigit h1 && isHexDigit h2) = true
      · rw [if_pos htr] at h hr
        exact ih rest (by simp at hk ⊢; omega) _ out h r hr
      · rw [if_neg htr] at h hr
        split at h
        · rename_i out1 tail hout1 htail
          rcases List.mem_append.mp hr with hr | hr
          · split at hr
            · exact absurd hr (by simp)
            · rcases List.mem_singleton.mp hr with rfl
              exact ⟨out1, hout1⟩
          · exact ih (h1 :: h2 :: rest) (by simp at hk ⊢; omega) [] tail htail r hr
        · exact absurd h (by simp)

/-- A component containing a bad run fails the normalizer. -/
theorem normalizeComponent_badrun (l : List Char) (h : hasBadRun l) :
    normalizeComponent l = none := by
  rcases h with ⟨r, hr, hbad⟩
  cases hnc : normalizeComponent l with
  | none => rfl
  | some out =>
    obtain ⟨o, ho⟩ := scanPct_runs_some l.length l le_rfl [] out hnc r hr
    obtain ⟨cs, hcs, _, _⟩ := normalizeOctets_some (octetsFrom r).length _ le_rfl o ho
    exact absurd ⟨cs, hcs⟩ hbad

/-- The lone continuation octet `0xB5` is not a UTF-8 sequence: the first
octet of any scalar-value encoding is below `0x80` or at least `0xC0`. -/
theorem utf8WF_not_B5 : ¬ utf8WellFormed [0xB5] := by
  rintro ⟨cs, hcs⟩
  match cs with
  | [] => simp at hcs
  | c :: rest =>
    simp only [List.map_cons, List.flatten_cons] at hcs
    by_cases h1 : c.toNat < 0x80
    · simp [utf8Encode, h1] at hcs
      omega
    · by_cases h2 : c.toNat < 0x800
      · simp [utf8Encode, h1, h2] at hcs
      · by_cases h3 : c.toNat < 0x10000
        · simp [utf8Encode, h1, h2, h3] at hcs
        · simp [utf8Encode, h1, h2, h3] at hcs

/-- `coarseSplitFrom` returns its scheme argument unchanged. -/
theorem coarseSplitFrom_scheme (sch : Option (List Char)) (l : List Char) :
    (coarseSplitFrom sch l).scheme = sch := rfl

/-! ## Helper lemmas: coarse split reconstruction -/

theorem takeWhile_all {α : Type} (p : α → Bool) :
    ∀ l : List α, (∀ c ∈ l, p c = true) → l.takeWhile p = l := by
  intro l h
  induction l with
  | nil => rfl
  | cons c rest ih =>
    rw [List.takeWhile_cons, h c (by simp)]
    simp [ih (fun x hx => h x (by simp [hx]))]

theorem dropWhile_all {α : Type} (p : α → Bool) :
    ∀ l : List α, (∀ c ∈ l, p c = true) → l.dropWhile p = [] := by
  intro l h
  induction l with
  | nil => rfl
  | cons c rest ih =>
    rw [List.dropWhile_cons, h c (by simp)]
    simp only [if_true]
    exact ih (fun x hx => h x (by simp [hx]))

theorem dropWhile_head_false {α : Type} (p : α → Bool) :
    ∀ l : List α, l.dropWhile p = [] ∨
      ∃ c r, l.dropWhile p = c :: r ∧ p c = false := by
  intro l
  induction l with
  | nil => exact Or.inl rfl
  | cons c rest ih =>
    by_cases hc : p c = true
    · rw [List.dropWhile_cons, hc]
      simpa using ih
    · right
      refine ⟨c, rest, ?_, by simpa using hc⟩
      rw [List.dropWhile_cons]
      simp [hc]

theorem authSplit_join (l : List Char) :
    markPre ['/', '/'] (authSplit l).1 ++ (authSplit l).2 = l := by
  rcases l with _ | ⟨c, _ | ⟨d, r⟩⟩
  · rfl
  · rfl
  · by_cases hcd : c = '/' ∧ d = '/'
    · obtain ⟨rfl, rfl⟩ := hcd
      simp [authSplit, markPre, List.takeWhile_append_dropWhile]
    · simp [authSplit, markPre, hcd]

theorem querySplit_join (l : List Char) :
    markPre ['?'] (querySplit l).1 ++ (querySplit l).2 = l := by
  rcases l with _ | ⟨c, r⟩
  · rfl
  · by_cases hc : c = '?'
    · subst hc
      simp [querySplit, markPre, List.takeWhile_append_dropWhile]
    · simp [querySplit, markPre, hc]

theorem fragSplit_join (l : List Char) :
    markPre ['#'] (fragSplit l).1 ++ (fragSplit l).2 = l := by
  rcases l with _ | ⟨c, r⟩
  · rfl
  · by_cases hc : c = '#'
    · subst hc
      simp [fragSplit, markPre, List.takeWhile_append_dropWhile]
    · simp [fragSplit, markPre, hc]

/-- The coarse groups re-prefixed with their markers rebuild the input. -/
theorem joinParts_coarseSplitFrom (sch : Option (List Char)) (l : List Char) :
    joinParts (coarseSplitFrom sch l) = schemeText sch ++ l := by
  simp only [joinParts, coarseSplitFrom, List.append_assoc]
  congr 1
  conv_rhs => rw [← authSplit_join l]
  congr 1
  conv_rhs => rw [← List.takeWhile_append_dropWhile isPathChar ((authSplit l).2)]
  congr 1
  conv_rhs => rw [← querySplit_join ((authSplit l).2.dropWhile isPathChar)]
  congr 1
  conv_rhs => rw [← fragSplit_join (querySplit ((authSplit l).2.dropWhile isPathChar)).2]

/-- The full coarse split rebuilds the input. -/
theorem joinParts_coarseSplit (l : List Char) :
    joinParts (coarseSplit l) = l := by
  rcases hds : List.dropWhile isSchemeBodyChar l with _ | ⟨c, r⟩ <;>
    simp only [coarseSplit, splitSchemeCandidate, hds]
  · simpa using joinParts_coarseSplitFrom none l
  · split
    · rename_i hcp
      obtain ⟨rfl, -⟩ := hcp
      rw [joinParts_coarseSplitFrom]
      conv_rhs => rw [← List.takeWhile_append_dropWhile isSchemeBodyChar l]
      rw [hds]
      simp [schemeText]
    · simpa using joinParts_coarseSplitFrom none l

/-- `parseParts` rebuilds the input. -/
theorem joinParts_parseParts (l : List Char) :
    joinParts (parseParts l) = l := by
  simp only [parseParts]
  cases hs : (coarseSplit l).scheme with
  | none =>
    simp only [hs]
    exact joinParts_coarseSplit l
  | some sch =>
    simp only [hs]
    split
    · exact joinParts_coarseSplit l
    · simpa using joinParts_coarseSplitFrom none l

theorem mk_eq_empty (x : List Char) : (String.mk x = "") ↔ x = [] := String.ext_iff

/-- The scheme emission of `Format` on a built IRI renders the coarse
scheme group with its colon. -/
theorem scheme_piece (o : Option (List Char)) (hs : o ≠ some []) :
    (if String.mk (o.getD []) ≠ "" then String.mk (o.getD []) ++ ":" else "").data =
      schemeText o := by
  cases o with
  | none => decide
  | some s =>
    have hne : String.mk s ≠ "" := by
      intro hc
      exact hs (by rw [(mk_eq_empty s).mp hc])
    simp only [Option.getD_some]
    rw [if_pos hne]
    rfl

/-- The authority emission of `Format` on a built IRI renders the coarse
authority group with its `//` marker. -/
theorem auth_piece (o : Option (List Char)) :
    (if (decide (o = some []) || decide (String.mk (o.getD []) ≠ "")) = true
      then ("//" : String) ++ String.mk (o.getD []) else "").data =
      markPre ['/', '/'] o := by
  cases o with
  | none => decide
  | some a =>
    by_cases ha : a = []
    · subst ha
      decide
    · have h1 : (decide (some a = some ([] : List Char)) ||
          decide (String.mk a ≠ "")) = true := by
        have : String.mk a ≠ "" := fun hc => ha ((mk_eq_empty a).mp hc)
        simp [this]
      simp only [Option.getD_some]
      rw [h1, if_pos rfl]
      rfl

/-- The query emission of `Format` on a built IRI renders the coarse query
group with its `?` marker. -/
theorem query_piece (o : Option (List Char)) :
    (if (decide (o = some []) || decide (String.mk (o.getD []) ≠ "")) = true
      then ("?" : String) ++ String.mk (o.getD []) else "").data =
      markPre ['?'] o := by
  cases o with
  | none => decide
  | some q =>
    by_cases hq : q = []
    · subst hq
      decide
    · have h1 : (decide (some q = some ([] : List Char)) ||
          decide (String.mk q ≠ "")) = true := by
        have : String.mk q ≠ "" := fun hc => hq ((mk_eq_empty q).mp hc)
        simp [this]
      simp only [Option.getD_some]
      rw [h1, if_pos rfl]
      rfl

/-- The fragment emission of `Format` on a built IRI renders the coarse
fragment group with its `#` marker. -/
theorem frag_piece (o : Option (List Char)) :
    (if (decide (o = some []) || decide (String.mk (o.getD []) ≠ "")) = true
      then ("#" : String) ++ String.mk (o.getD []) else "").data =
      markPre ['#'] o := by
  cases o with
  | none => decide
  | some f =>
    by_cases hf : f = []
    · subst hf
      decide
    · have h1 : (decide (some f = some ([] : List Char)) ||
          decide (String.mk f ≠ "")) = true := by
        have : String.mk f ≠ "" := fun hc => hf ((mk_eq_empty f).mp hc)
        simp [this]
      simp only [Option.getD_some]
      rw [h1, if_pos rfl]
      rfl

/-- `Format` of a built IRI renders the coarse groups with their markers:
the input minus the unconsumed tail. -/
theorem format_buildIRI (cp : CoarseParts) (hs : cp.scheme ≠ some []) :
    (Format (buildIRI cp)).data ++ cp.rest = joinParts cp := by
  obtain ⟨sch, auth, path, query, frag, rest⟩ := cp
  simp only [Format, buildIRI, String.data_append]
  rw [scheme_piece sch hs, auth_piece auth, query_piece query, frag_piece frag]
  simp only [joinParts, List.append_assoc]

theorem authSplit_snd_subset (l : List Char) : (authSplit l).2 ⊆ l := by
  rcases l with _ | ⟨c, _ | ⟨d, r⟩⟩
  · exact fun x hx => hx
  · exact fun x hx => hx
  · by_cases hcd : c = '/' ∧ d = '/'
    · obtain ⟨rfl, rfl⟩ := hcd
      intro x hx
      simp only [authSplit, and_self, if_pos] at hx
      exact List.mem_cons_of_mem _ (List.mem_cons_of_mem _
        (List.dropWhile_subset isAuthChar hx))
    · intro x hx
      simp only [authSplit, hcd, if_false] at hx
      exact hx

theorem querySplit_snd_subset (l : List Char) : (querySplit l).2 ⊆ l := by
  rcases l with _ | ⟨c, r⟩
  · exact fun x hx => hx
  · by_cases hc : c = '?'
    · subst hc
      intro x hx
      simp only [querySplit, if_pos] at hx
      exact List.mem_cons_of_mem _ (List.dropWhile_subset _ hx)
    · intro x hx
      simp only [querySplit, hc, if_false] at hx
      exact hx

theorem splitSchemeCandidate_snd_subset (l : List Char) :
    (splitSchemeCandidate l).2 ⊆ l := by
  simp only [splitSchemeCandidate]
  rcases hds : List.dropWhile isSchemeBodyChar l with _ | ⟨c, r⟩ <;> simp only [hds]
  · exact fun x hx => hx
  · split
    · intro x hx
      exact List.dropWhile_subset isSchemeBodyChar
        (hds ▸ List.mem_cons_of_mem c hx)
    · exact fun x hx => hx

/-- The text left after the path group is empty or starts at a query or
fragment marker. -/
theorem pathRemainder_shape (x : List Char) :
    x.dropWhile isPathChar = [] ∨
      ∃ c r, x.dropWhile isPathChar = c :: r ∧ (c = '?' ∨ c = '#') := by
  rcases dropWhile_head_false isPathChar x with h0 | ⟨c, r, hc, hf⟩
  · exact Or.inl h0
  · right
    refine ⟨c, r, hc, ?_⟩
    by_cases h1 : c = '?'
    · exact Or.inl h1
    · by_cases h2 : c = '#'
      · exact Or.inr h2
      · exact absurd hf (by simp [isPathChar, h1, h2])

/-- The text left after the query group is empty or starts at the fragment
marker. -/
theorem querySplit_snd_shape (x : List Char)
    (hx : x = [] ∨ ∃ c r, x = c :: r ∧ (c = '?' ∨ c = '#')) :
    (querySplit x).2 = [] ∨ ∃ r, (querySplit x).2 = '#' :: r := by
  rcases hx with rfl | ⟨c, r, rfl, hc⟩
  · exact Or.inl rfl
  · rcases hc with rfl | rfl
    · simp only [querySplit, if_pos]
      rcases dropWhile_head_false (fun x => decide (x ≠ '#')) r with h | ⟨c2, r2, hc2, hf⟩
      · exact Or.inl h
      · right
        have hcc : c2 = '#' := by simpa using hf
        exact ⟨r2, by rw [hc2, hcc]⟩
    · right
      exact ⟨r, by simp [querySplit]⟩

/-- With no newline in the fragment text, nothing is left unconsumed. -/
theorem fragSplit_snd_nil (y : List Char)
    (hy : y = [] ∨ ∃ r, y = '#' :: r)
    (h : ∀ c ∈ y, ¬(c = '\n')) : (fragSplit y).2 = [] := by
  rcases hy with rfl | ⟨r, rfl⟩
  · rfl
  · simp only [fragSplit, if_pos]
    apply dropWhile_all
    intro c hc
    simpa using h c (List.mem_cons_of_mem _ hc)

/-- A newline-free input is consumed entirely by the coarse split. -/
theorem coarseSplitFrom_rest_nil (sch : Option (List Char)) (l : List Char)
    (h : ∀ c ∈ l, ¬(c = '\n')) : (coarseSplitFrom sch l).rest = [] := by
  have hq := querySplit_snd_shape _ (pathRemainder_shape ((authSplit l).2))
  exact fragSplit_snd_nil _ hq (fun c hc =>
    h c (authSplit_snd_subset l (List.dropWhile_subset isPathChar
      (querySplit_snd_subset _ hc))))

theorem coarseSplit_rest_nil (l : List Char)
    (h : ∀ c ∈ l, ¬(c = '\n')) : (coarseSplit l).rest = [] := by
  simp only [coarseSplit]
  exact coarseSplitFrom_rest_nil _ _
    (fun c hc => h c (splitSchemeCandidate_snd_subset l hc))

/-- A newline-free input is consumed entirely by `parseParts`. -/
theorem parseParts_rest_nil (l : List Char)
    (h : ∀ c ∈ l, ¬(c = '\n')) : (parseParts l).rest = [] := by
  simp only [parseParts]
  cases hs : (coarseSplit l).scheme with
  | none =>
    simp only [hs]
    exact coarseSplit_rest_nil l h
  | some sch =>
    simp only [hs]
    split
    · exact coarseSplit_rest_nil l h
    · exact coarseSplitFrom_rest_nil none l h

/-- The coarse split never produces an empty scheme group. -/
theorem coarseSplit_scheme_ne_nil (l : List Char) :
    (coarseSplit l).scheme ≠ some [] := by
  simp only [coarseSplit]
  rw [coarseSplitFrom_scheme]
  simp only [splitSchemeCandidate]
  rcases hds : List.dropWhile isSchemeBodyChar l with _ | ⟨c, r⟩ <;> simp only [hds]
  · simp
  · split
    · rename_i hcp
      simp only [ne_eq, Option.some.injEq]
      intro hc
      exact hcp.2 (by simp [hc])
    · simp

/-- `parseParts` never produces an empty scheme group. -/
theorem parseParts_scheme_ne_nil (l : List Char) :
    (parseParts l).scheme ≠ some [] := by
  simp only [parseParts]
  cases hs : (coarseSplit l).scheme with
  | none =>
    simp only [hs]
    simp
  | some sch =>
    simp only [hs]
    split
    · exact coarseSplit_scheme_ne_nil l
    · rw [coarseSplitFrom_scheme]
      simp

/-- A successful `checkParts` returns exactly the built IRI. -/
theorem checkParts_ok (cp : CoarseParts) (iri : IRI)
    (h : checkParts cp = .ok iri) : iri = buildIRI cp := by
  simp only [checkParts] at h
  split_ifs at h
  split at h
  · simpa using h.symm
  · exact absurd h (by simp)

/-! ## Claim theorems -/

/-- C3: in every branch of the resolution algorithm — including the one
for an entirely empty reference — the fragment of `resolveReference base
ref` and its presence flag are exactly those of `ref`; the base's fragment
is never inherited. -/
theorem resolve_fragment_from_ref (base ref : IRI) :
    (resolveReference base ref).Fragment = ref.Fragment ∧
    (resolveReference base ref).ForceFragment = ref.ForceFragment := by
  unfold resolveReference
  repeat' split
  all_goals exact ⟨rfl, rfl⟩

/-- C4, counterexample: the claim conditions query inheritance on the
*resolved* path being empty. With `base.Path = "/b"`, `base.Query = "q"`
and an entirely empty reference, the resolved path `"/b"` is non-empty and
the reference has no query present, so by the claim the result's query
would be the reference's (empty) query — but the code inherits `"q"`,
because its condition tests the *reference's* path. -/
theorem resolve_query_resolved_path_cex :
    (resolveReference { Path := "/b", Query := "q" } {}).Path ≠ "" ∧
    IRI.hasQuery {} = false ∧
    (resolveReference { Path := "/b", Query := "q" } {}).Query ≠ IRI.Query {} := by decide

/-- C4, amended: in `resolveReference base ref`, if the *reference's* path
is empty, the reference has no query present, and the reference has
neither scheme nor authority, the result inherits the base's query and
query-presence flag; otherwise the result's query and flag are the
reference's as given. -/
theorem resolve_query_inheritance (base ref : IRI) :
    (ref.hasScheme = false → ref.hasAuthority = false → ref.Path = "" →
      ref.hasQuery = false →
      (resolveReference base ref).Query = base.Query ∧
      (resolveReference base ref).ForceQuery = base.ForceQuery) ∧
    (ref.hasScheme = true ∨ ref.hasAuthority = true ∨ ref.Path ≠ "" ∨
      ref.hasQuery = true →
      (resolveReference base ref).Query = ref.Query ∧
      (resolveReference base ref).ForceQuery = ref.ForceQuery) := by
  unfold resolveReference
  constructor
  · intro h1 h2 h3 h4
    simp [h1, h2, h3, h4]
  · intro h
    rcases h with h | h | h | h
    · simp [h]
    · by_cases hs : ref.hasScheme = true <;> simp [hs, h]
    · by_cases hs : ref.hasScheme = true <;>
        by_cases ha : ref.hasAuthority = true <;> simp_all
    · by_cases hs : ref.hasScheme = true <;>
        by_cases ha : ref.hasAuthority = true <;> simp_all

/-- C4 witness: at `base = {Path := "/b", Query := "q"}` and an empty
reference, the inheritance branch applies and yields the base's query. -/
theorem resolve_query_inheritance_witness :
    (resolveReference { Path := "/b", Query := "q" } {}).Query = "q" :=
  ((resolve_query_inheritance { Path := "/b", Query := "q" } {}).1
    (by decide) (by decide) (by decide) (by decide)).1

/-- C5, counterexample: for a reference with a non-empty scheme the code
returns the reference verbatim — the path is *not* passed through
dot-segment removal (`"./h"` stays `"./h"`, while dot-segment removal
would produce `"/h"`). -/
theorem resolve_scheme_branch_cex :
    IRI.hasScheme { Scheme := "g", Path := "./h" } = true ∧
    (resolveReference {} { Scheme := "g", Path := "./h" }).Path = "./h" ∧
    resolvePath "./h" "" ≠ "./h" := by decide

/-- C5, amended: for every base and every reference whose scheme is
non-empty, `resolveReference base ref` equals the reference verbatim in
all components, the path included (no dot-segment removal is applied in
this branch). -/
theorem resolve_scheme_branch_verbatim (base ref : IRI) (h : ref.Scheme ≠ "") :
    resolveReference base ref = ref := by
  have hs : ref.hasScheme = true := by simp [IRI.hasScheme, h]
  unfold resolveReference
  simp [hs]

/-- C5 witness: a concrete scheme-carrying reference is returned
verbatim. -/
theorem resolve_scheme_branch_verbatim_witness :
    resolveReference {} { Scheme := "g", Path := "./h" } =
      { Scheme := "g", Path := "./h" } :=
  resolve_scheme_branch_verbatim {} { Scheme := "g", Path := "./h" } (by decide)

/-- C7: the RFC 3986 §5.4 samples against base `http://a/b/c/d;p?q`:
`../../g` resolves to `http://a/g`, the empty reference to
`http://a/b/c/d;p?q`, `//g` to `http://g`, and the abnormal
`../../../g` — ascending past the root — is silently absorbed to
`http://a/g` rather than failing. -/
theorem resolve_rfc3986_samples :
    ((Parse "http://a/b/c/d;p?q").bind fun base =>
      (Parse "../../g").map fun r => Format (resolveReference base r)) =
        .ok "http://a/g" ∧
    ((Parse "http://a/b/c/d;p?q").bind fun base =>
      (Parse "").map fun r => Format (resolveReference base r)) =
        .ok "http://a/b/c/d;p?q" ∧
    ((Parse "http://a/b/c/d;p?q").bind fun base =>
      (Parse "//g").map fun r => Format (resolveReference base r)) =
        .ok "http://g" ∧
    ((Parse "http://a/b/c/d;p?q").bind fun base =>
      (Parse "../../../g").map fun r => Format (resolveReference base r)) =
        .ok "http://a/g" :=
  ⟨by decide, by decide, by decide, by decide⟩


/-- C8 counterexample: the claimed unconditional idempotence fails. On
`%4%41` the first pass leaves the stray `%4` alone but rewrites `%41` to
`A`, producing `%4A`, which the second pass decodes to `J`. -/
theorem npe_idempotent_cex :
    (NormalizePercentEncoding { Path := "%4%41" }).bind NormalizePercentEncoding ≠
      NormalizePercentEncoding { Path := "%4%41" } := by
  decide

/-- C8 (amended): NormalizePercentEncoding is idempotent on every IRI
whose authority, path, query and fragment are well-formed percent text —
every `%` heads a complete two-hex-digit escape. -/
theorem npe_idempotent (x : IRI)
    (ha : pctWellFormed x.Authority.data = true)
    (hp : pctWellFormed x.Path.data = true)
    (hq : pctWellFormed x.Query.data = true)
    (hf : pctWellFormed x.Fragment.data = true) :
    (NormalizePercentEncoding x).bind NormalizePercentEncoding =
      NormalizePercentEncoding x := by
  unfold NormalizePercentEncoding
  rcases hA : normalizeComponent x.Authority.data with _ | a
  · simp [hA, Except.bind]
  rcases hP : normalizeComponent x.Path.data with _ | p
  · simp [hA, hP, Except.bind]
  rcases hQ : normalizeComponent x.Query.data with _ | q
  · simp [hA, hP, hQ, Except.bind]
  rcases hF : normalizeComponent x.Fragment.data with _ | f
  · simp [hA, hP, hQ, hF, Except.bind]
  simp only [hA, hP, hQ, hF, Except.bind]
  rw [normalizeComponent_fix _ _ ha hA, normalizeComponent_fix _ _ hp hP,
    normalizeComponent_fix _ _ hq hQ, normalizeComponent_fix _ _ hf hF]

/-- C8 witness: idempotence at a concrete IRI with well-formed escapes in
every component. -/
theorem npe_idempotent_witness :
    (NormalizePercentEncoding
        { Authority := "u%C3%A9@h", Path := "/dog%20house/%c2%B5",
          Query := "a%3Db", Fragment := "f%2F" }).bind NormalizePercentEncoding =
      NormalizePercentEncoding
        { Authority := "u%C3%A9@h", Path := "/dog%20house/%c2%B5",
          Query := "a%3Db", Fragment := "f%2F" } :=
  npe_idempotent _ (by decide) (by decide) (by decide) (by decide)


/-- C10: every maximal percent run the normalizer hands to `octetsFrom`
(the strings matched by the `(%hh)+` replacement pattern) is a non-empty
chain of `%XX` triples; consequently its length is a multiple of three,
the checked decode — in which every slice access and every `hexToByte`
lookup must succeed — returns one octet per triple, and agrees with the
unchecked `octetsFrom`, so decoding a run can neither panic nor drop an
octet. -/
theorem octetsFrom_runs_safe (l : List Char) :
    ∀ r ∈ runsOf l, r ≠ [] ∧ isTriples r = true ∧
      ∃ bs, octetsFromChecked r = some bs ∧ octetsFrom r = bs ∧
        3 * bs.length = r.length := by
  intro r hr
  obtain ⟨hne, ht⟩ := scanRuns_mem l.length l le_rfl [] rfl r hr
  obtain ⟨bs, hbs, hlen⟩ := octetsFromChecked_triples r.length r le_rfl ht
  exact ⟨hne, ht, bs, hbs, octetsFromChecked_eq r.length r le_rfl bs hbs, hlen⟩

/-- C10 witness: a concrete run of a concrete component. -/
theorem octetsFrom_runs_safe_witness :
    ("%41%42".data ∈ runsOf "a%41%42b%C3%B5".data) ∧
    ("%41%42".data ≠ [] ∧ isTriples "%41%42".data = true ∧
      ∃ bs, octetsFromChecked "%41%42".data = some bs ∧
        octetsFrom "%41%42".data = bs ∧ 3 * bs.length = "%41%42".data.length) :=
  ⟨by decide, octetsFrom_runs_safe "a%41%42b%C3%B5".data "%41%42".data (by decide)⟩


/-- C2: when the authority, path, query or fragment contains a percent run
whose decoded octets are not valid UTF-8, `NormalizePercentEncoding` fails
with an encoding error and `Parse` fails with a parse error — neither
returns a partial or partially-normalized IRI; in particular
`Parse "https://x.example.org/dog%20house/%B5"` fails. -/
theorem bad_utf8_rejected :
    (∀ iri : IRI,
      hasBadRun iri.Authority.data ∨ hasBadRun iri.Path.data ∨
        hasBadRun iri.Query.data ∨ hasBadRun iri.Fragment.data →
      NormalizePercentEncoding iri = .error "invalid percent encoding") ∧
    (∀ s : String,
      hasBadRun ((parseParts s.data).auth.getD []) ∨
        hasBadRun (parseParts s.data).path ∨
        hasBadRun ((parseParts s.data).query.getD []) ∨
        hasBadRun ((parseParts s.data).frag.getD []) →
      ∃ e, Parse s = .error e) ∧
    Parse "https://x.example.org/dog%20house/%B5" =
      .error "invalid percent encoding" := by
  refine ⟨?_, ?_, by decide⟩
  · intro iri h
    unfold NormalizePercentEncoding
    rcases h with h | h | h | h
    · rw [normalizeComponent_badrun _ h]
    · cases hA : normalizeComponent iri.Authority.data <;>
        rw [normalizeComponent_badrun _ h]
    · cases hA : normalizeComponent iri.Authority.data <;>
        cases hP : normalizeComponent iri.Path.data <;>
        rw [normalizeComponent_badrun _ h]
    · cases hA : normalizeComponent iri.Authority.data <;>
        cases hP : normalizeComponent iri.Path.data <;>
        cases hQ : normalizeComponent iri.Query.data <;>
        rw [normalizeComponent_badrun _ h]
  · intro s h
    simp only [Parse, checkParts]
    split_ifs with h1 h2 h3 h4 h5
    · exact ⟨_, rfl⟩
    · exact ⟨_, rfl⟩
    · exact ⟨_, rfl⟩
    · exact ⟨_, rfl⟩
    · exact ⟨_, rfl⟩
    · rcases h with h | h | h | h
      · rw [normalizeComponent_badrun _ h]
        exact ⟨_, rfl⟩
      · cases hA : normalizeComponent ((parseParts s.data).auth.getD []) <;>
          rw [normalizeComponent_badrun _ h] <;> exact ⟨_, rfl⟩
      · cases hA : normalizeComponent ((parseParts s.data).auth.getD []) <;>
          cases hP : normalizeComponent (parseParts s.data).path <;>
          rw [normalizeComponent_badrun _ h] <;> exact ⟨_, rfl⟩
      · cases hA : normalizeComponent ((parseParts s.data).auth.getD []) <;>
          cases hP : normalizeComponent (parseParts s.data).path <;>
          cases hQ : normalizeComponent ((parseParts s.data).query.getD []) <;>
          rw [normalizeComponent_badrun _ h] <;> exact ⟨_, rfl⟩

/-- C2 witness: the `%B5` run is rejected both by the normalizer of a
concrete IRI and by `Parse` of a concrete string. -/
theorem bad_utf8_rejected_witness :
    NormalizePercentEncoding { Path := "/dog%20house/%B5" } =
      .error "invalid percent encoding" ∧
    (∃ e, Parse "https://x.example.org/dog%20house/%B5" = .error e) :=
  ⟨bad_utf8_rejected.1 { Path := "/dog%20house/%B5" }
      (Or.inr (Or.inl ⟨"%B5".data, by decide,
        by rw [show octetsFrom ("%B5".data) = [0xB5] from rfl]; exact utf8WF_not_B5⟩)),
    bad_utf8_rejected.2.1 "https://x.example.org/dog%20house/%B5"
      (Or.inr (Or.inl ⟨"%B5".data, by decide,
        by rw [show octetsFrom ("%B5".data) = [0xB5] from rfl]; exact utf8WF_not_B5⟩))⟩


/-- C1: a successful `NormalizePercentEncoding` leaves the scheme
untouched and rewrites each of the authority, path, query and fragment
through the run normalizer, under which every maximal percent run decodes
to code points re-emitted by `emitCp` — literally when `iunreserved`,
as uppercase percent triples otherwise; in particular the path of
`NormalizePercentEncoding` of `Parse "https://example.org/dog%20house/%c2%B5"`
is `/dog%20house/µ`. -/
theorem npe_normalizes (x y : IRI) (h : NormalizePercentEncoding x = .ok y) :
    y.Scheme = x.Scheme ∧
    (∀ xc ∈ [x.Authority, x.Path, x.Query, x.Fragment],
      ∀ r ∈ runsOf xc.data, ∃ cps : List Char,
        octetsFrom r = (cps.map utf8Encode).flatten ∧
        normalizeOctets (octetsFrom r) = some ((cps.map emitCp).flatten)) ∧
    normalizeComponent x.Authority.data = some y.Authority.data ∧
    normalizeComponent x.Path.data = some y.Path.data ∧
    normalizeComponent x.Query.data = some y.Query.data ∧
    normalizeComponent x.Fragment.data = some y.Fragment.data ∧
    ((Parse "https://example.org/dog%20house/%c2%B5").bind
        NormalizePercentEncoding).map IRI.Path = .ok "/dog%20house/µ" := by
  unfold NormalizePercentEncoding at h
  rcases hA : normalizeComponent x.Authority.data with _ | a
  · rw [hA] at h
    exact absurd h (by simp)
  rcases hP : normalizeComponent x.Path.data with _ | p
  · rw [hA, hP] at h
    exact absurd h (by simp)
  rcases hQ : normalizeComponent x.Query.data with _ | q
  · rw [hA, hP, hQ] at h
    exact absurd h (by simp)
  rcases hF : normalizeComponent x.Fragment.data with _ | f
  · rw [hA, hP, hQ, hF] at h
    exact absurd h (by simp)
  rw [hA, hP, hQ, hF] at h
  simp only [Except.ok.injEq] at h
  subst h
  refine ⟨rfl, ?_, rfl, rfl, rfl, rfl, by decide⟩
  intro xc hxc r hr
  have key : ∀ (l : List Char) (out : List Char),
      normalizeComponent l = some out → r ∈ runsOf l →
      ∃ cps : List Char, octetsFrom r = (cps.map utf8Encode).flatten ∧
        normalizeOctets (octetsFrom r) = some ((cps.map emitCp).flatten) := by
    intro l out hnc hmem
    obtain ⟨o, ho⟩ := scanPct_runs_some l.length l le_rfl [] out hnc r hmem
    obtain ⟨cps, hc1, hc2, _⟩ :=
      normalizeOctets_some (octetsFrom r).length _ le_rfl o ho
    refine ⟨cps, hc1, ?_⟩
    rw [ho, hc2]
  simp only [List.mem_cons, List.not_mem_nil, or_false] at hxc
  rcases hxc with rfl | rfl | rfl | rfl
  · exact key _ _ hA hr
  · exact key _ _ hP hr
  · exact key _ _ hQ hr
  · exact key _ _ hF hr

/-- C1 witness: normalization of a concrete IRI, whose path's runs `%20`
and `%c2%B5` decode to the space (kept encoded, uppercased) and µ
(emitted literally). -/
theorem npe_normalizes_witness :
    NormalizePercentEncoding { Path := "/dog%20house/%c2%B5" } =
      .ok { Path := "/dog%20house/µ" } ∧
    normalizeComponent ("/dog%20house/%c2%B5".data) =
      some (("/dog%20house/µ".data)) :=
  ⟨by decide, (npe_normalizes { Path := "/dog%20house/%c2%B5" }
      { Path := "/dog%20house/µ" } (by decide)).2.2.2.1⟩


/-- C9: the prefix before the first colon becomes the scheme only when it
matches the scheme grammar — whenever the candidate fails the grammar the
whole string is rescanned as schemeless — and a colon may still appear in
an opaque path, so `Parse "a:b:c:"` succeeds with scheme `a` and path
`b:c:`. -/
theorem scheme_reparse (l : List Char) :
    (∀ sch, (coarseSplit l).scheme = some sch → schemeRE.matches sch = false →
      parseParts l = coarseSplitFrom none l) ∧
    (∀ sch, (parseParts l).scheme = some sch → schemeRE.matches sch = true) ∧
    Parse "a:b:c:" = .ok { Scheme := "a", Path := "b:c:" } := by
  refine ⟨?_, ?_, by decide⟩
  · intro sch hsch hm
    simp only [parseParts, hsch, hm, Bool.false_eq_true, if_false]
  · intro sch h2
    simp only [parseParts] at h2
    cases hs : (coarseSplit l).scheme with
    | none =>
      simp only [hs] at h2
      exact absurd h2 (by simp)
    | some sch0 =>
      simp only [hs] at h2
      by_cases hm : schemeRE.matches sch0 = true
      · rw [if_pos hm] at h2
        rw [hs] at h2
        obtain rfl : sch0 = sch := by simpa using h2
        exact hm
      · rw [if_neg hm] at h2
        rw [coarseSplitFrom_scheme] at h2
        exact absurd h2 (by simp)

/-- C9 witness: the candidate `1a` fails the scheme grammar, so the whole
string is rescanned as schemeless. -/
theorem scheme_reparse_witness :
    parseParts ("1a:b".data) = coarseSplitFrom none ("1a:b".data) :=
  (scheme_reparse ("1a:b".data)).1 ("1a".data) (by decide) (by decide)


/-- C6: a newline-free string accepted by `Parse` is reproduced verbatim
by `Format` — components and markers are kept as given; in particular
`https://example.com:22/path/to?q=a#b` and `#` round-trip, and `Format`
of an IRI with only the fragment-presence flag set is `#`. -/
theorem parse_format_roundtrip :
    (∀ (s : String) (iri : IRI), '\n' ∉ s.data → Parse s = .ok iri →
      Format iri = s) ∧
    ((Parse "https://example.com:22/path/to?q=a#b").map Format =
      .ok "https://example.com:22/path/to?q=a#b") ∧
    ((Parse "#").map Format = .ok "#") ∧
    Format { ForceFragment := true } = "#" := by
  refine ⟨?_, by decide, by decide, by decide⟩
  intro s iri hnl h
  have hiri : iri = buildIRI (parseParts s.data) := checkParts_ok _ _ h
  subst hiri
  apply String.ext
  have hfmt := format_buildIRI (parseParts s.data) (parseParts_scheme_ne_nil _)
  rw [parseParts_rest_nil s.data (fun c hc hceq => hnl (hceq ▸ hc)),
    List.append_nil] at hfmt
  rw [hfmt, joinParts_parseParts]

/-- C6 witness: a concrete parse whose format is the input again. -/
theorem parse_format_roundtrip_witness :
    Format
      { Scheme := "a", Authority := "b", Path := "/c", Query := "d",
        Fragment := "e" } = "a://b/c?d#e" :=
  parse_format_roundtrip.1 "a://b/c?d#e"
    { Scheme := "a", Authority := "b", Path := "/c", Query := "d",
      Fragment := "e" }
    (by decide) (by decide)

end Iri
